import Mathlib

/-!
# Verification of the SortingNetworkCpp repository

Shallow embedding of the sorting-network library: the algorithm-tag
enumeration, the network builder (one ordered list of compare-exchange
index pairs per width and tag) and the generic executor that replays a
network against a buffer with a caller-supplied comparator.

The repository's visible sources are the public wrapper
`include/sorting_network_cpp/sorting_network.hpp`, the test suite
`test/sorting_network_tests.cpp` and the benchmark driver
`src/benchmark.cpp`.  The construction header
`sorting_network_cpp/sorting_network_impl.hpp` (network derivation, the
default `CompareAndSwap` functor, the `NetworkType` enumeration) is not
part of the visible sources, so those parts are modelled from the
specification, as recorded in the doc comments below.
-/

namespace SortingNetworkCpp

/-- The `NetworkType` enumeration selecting a construction algorithm.
The constructor names are the ones used by the visible sources
(`src/test/sorting_network_tests.cpp`, `src/src/benchmark.cpp`). -/
inductive NetworkType
  | BubbleSort
  | InsertionSort
  | BoseNelsonSort
  | BatcherOddEvenMergeSort
  | BitonicMergeSort
  | SizeOptimizedSort
  deriving DecidableEq

/-- Modelled from the spec: one compare-exchange step of the executor on a
buffer.  For a pair `(i, j)` = (low, high): "if `comparator(buffer[high],
buffer[low])` holds (the element at `high` must precede the one at `low`),
swap `buffer[low]` and `buffer[high]`" (spec section 4.2; the default
`CompareAndSwap` functor lives in the missing impl header).  Out-of-range
indices leave the buffer unchanged (they never occur for built networks). -/
def cswapAt (comp : α → α → Bool) (l : List α) (i j : Nat) : List α :=
  match l[i]?, l[j]? with
  | some a, some b => if comp b a then (l.set i b).set j a else l
  | _, _ => l

/-- Modelled from the spec: the executor `apply(Network, buffer, comparator)`
"replays each Compare-Exchange Pair of the Network in sequence against
`buffer`" (spec section 4.2). -/
def applyNetwork (net : List (Nat × Nat)) (comp : α → α → Bool) (l : List α) :
    List α :=
  net.foldl (fun acc p => cswapAt comp acc p.1 p.2) l

/-- Modelled from the spec: the Bubble construction, "for i in [0, N), for
j in [0, N-1-i): emit pair (j, j+1)" (spec section 4.1; the construction
code is in the missing impl header). -/
def bubbleNet (n : Nat) : List (Nat × Nat) :=
  ((List.range n).map (fun i => (List.range (n - 1 - i)).map fun j => (j, j + 1))).flatten

/-- Modelled from the spec: the Insertion construction, "for i in [1, N),
walk j from i down to 1, emitting pair (j-1, j)" (spec section 4.1; the
construction code is in the missing impl header).  The walk for index `i`
is written as `t` running over `[0, i)` with `j = i - t`. -/
def insertionNet (n : Nat) : List (Nat × Nat) :=
  ((List.range n).map (fun i => (List.range i).map fun t => (i - 1 - t, i - t))).flatten

/-- Modelled from the spec: the Bose-Nelson merge recurrence.
`PBracket i x j y` merges the sorted block of `x` elements starting at
index `i` with the sorted block of `y` elements starting at index `j`
"by recursively pairing their first/last halves against each other using
the network-merge recurrence" (spec section 4.1).  This is the classical
Bose-Nelson `P`-bracket recursion from the literature the spec refers to;
the construction code itself is in the missing impl header. -/
def PBracket (i x j y : Nat) : List (Nat × Nat) :=
  if x = 0 ∨ y = 0 then []
  else if _h2 : x = 1 ∧ y = 1 then [(i, j)]
  else if _h3 : x = 1 ∧ y = 2 then [(i, j + 1), (i, j)]
  else if _h4 : x = 2 ∧ y = 1 then [(i, j), (i + 1, j)]
  else
    PBracket i (x / 2) j (if x % 2 = 1 then y / 2 else (y + 1) / 2) ++
      PBracket (i + x / 2) (x - x / 2)
        (j + (if x % 2 = 1 then y / 2 else (y + 1) / 2))
        (y - (if x % 2 = 1 then y / 2 else (y + 1) / 2)) ++
      PBracket (i + x / 2) (x - x / 2) j
        (if x % 2 = 1 then y / 2 else (y + 1) / 2)
termination_by x + y
decreasing_by all_goals (split <;> omega)

/-- Modelled from the spec: the Bose-Nelson sort recursion.  "To sort a
sub-range, split into two halves, recursively build each half (as
independent sortable blocks), then merge the two sorted halves"
(spec section 4.1).  `PStar i m` sorts the `m` elements starting at `i`. -/
def PStar (i m : Nat) : List (Nat × Nat) :=
  if _h : m ≤ 1 then []
  else
    PStar i (m / 2) ++ PStar (i + m / 2) (m - m / 2) ++
      PBracket i (m / 2) (i + m / 2) (m - m / 2)
termination_by m

/-- Modelled from the spec: the Bose-Nelson network for width `n`,
"defined for arbitrary N (no power-of-two restriction)" (spec 4.1). -/
def boseNelsonNet (n : Nat) : List (Nat × Nat) := PStar 0 n

/-- Rename the lines a network runs on (used to place a sub-network at an
offset or on a stride of the buffer). -/
def scaleNet (f : Nat → Nat) (net : List (Nat × Nat)) : List (Nat × Nat) :=
  net.map fun p => (f p.1, f p.2)

/-- Modelled from the spec: Batcher's odd-even merge for `2 ^ (k + 1)`
elements whose two halves of `2 ^ k` elements are each sorted; "recursively
sorts halves then merges using the odd-even merge recurrence" (spec 4.1).
The merge recursively merges the even- and the odd-indexed subsequences,
then compares the adjacent pairs `(2s+1, 2s+2)`. -/
def oemNet : Nat → List (Nat × Nat)
  | 0 => [(0, 1)]
  | k + 1 =>
    scaleNet (fun t => 2 * t) (oemNet k) ++
      scaleNet (fun t => 2 * t + 1) (oemNet k) ++
      (List.range (2 ^ (k + 1) - 1)).map fun s => (2 * s + 1, 2 * s + 2)

/-- Modelled from the spec: the Batcher odd-even merge sort network for
`2 ^ k` elements: sort both halves, then odd-even merge them. -/
def batcherK : Nat → List (Nat × Nat)
  | 0 => []
  | k + 1 =>
    batcherK k ++ scaleNet (fun t => t + 2 ^ k) (batcherK k) ++ oemNet k

/-- The ceiling base-2 logarithm: the least `k` with `n ≤ 2 ^ k`,
computed by searching `k = 0, 1, ..., n` (for every `n`, `n ≤ 2 ^ n`,
so the search always succeeds). -/
def clog2 (n : Nat) : Nat :=
  ((List.range (n + 1)).find? fun k => decide (n ≤ 2 ^ k)).getD 0

/-- Modelled from the spec: the Batcher odd-even merge sort network for a
power-of-two width `n = 2 ^ clog2 n` (spec section 4.1: "requires N a
power of two"). -/
def batcherNet (n : Nat) : List (Nat × Nat) := batcherK (clog2 n)

/-- Modelled from the spec: the recursive bitonic merge on a block of
`2 ^ k` elements starting at line `lo`: one stage of stride-`2 ^ (k - 1)`
comparisons, then the two halves recursively ("merges them via log2 N
comparison stages, each stage comparing elements at fixed stride",
spec section 4.1).  It sorts any bitonic block. -/
def bitonicCleanK (lo : Nat) : Nat → List (Nat × Nat)
  | 0 => []
  | k + 1 =>
    (List.range (2 ^ k)).map (fun t => (lo + t, lo + t + 2 ^ k)) ++
      bitonicCleanK lo k ++ bitonicCleanK (lo + 2 ^ k) k

/-- Modelled from the spec: the first stage of a bitonic merge of two
sorted `2 ^ k`-blocks.  All pairs of the data model are ascending
(low < high), so the two sorted ascending halves ("two bitonic sequences
of opposite monotonicity", spec 4.1) are compared through the
index-reversing pairs `(lo + t, lo + (2^(k+1) - 1 - t))`. -/
def bitonicFlipK (lo k : Nat) : List (Nat × Nat) :=
  (List.range (2 ^ k)).map fun t => (lo + t, lo + (2 ^ (k + 1) - 1 - t))

/-- Modelled from the spec: the bitonic merge sort network on the block of
`2 ^ k` elements starting at `lo`: sort both halves, flip-merge them, then
clean each half. -/
def bitonicK (lo : Nat) : Nat → List (Nat × Nat)
  | 0 => []
  | k + 1 =>
    bitonicK lo k ++ bitonicK (lo + 2 ^ k) k ++
      (bitonicFlipK lo k ++ bitonicCleanK lo k ++ bitonicCleanK (lo + 2 ^ k) k)

/-- Modelled from the spec and the repository's tests: the bitonic merge
sort network for an arbitrary width `n`.  The spec (sections 3, 4.1)
restricts BitonicMerge to power-of-two widths, but the repository's own
test `RandomBitonicMergeSort` (src/test/sorting_network_tests.cpp, lines
62-65) instantiates `SortingNetwork<N, BitonicMergeSort>` for every
`N` in 1..16 - including non-powers-of-two - and asserts that it sorts,
so the source is authoritative that the construction accepts arbitrary
widths.  The model therefore takes the power-of-two bitonic network for
the next power of two `2 ^ Nat.clog 2 n` and keeps the comparisons that
fit the width: positions `>= n` act as virtual padding above the real
buffer, and in an all-ascending network a maximal padding element is
never moved by them. -/
def bitonicNet (n : Nat) : List (Nat × Nat) :=
  (bitonicK 0 (clog2 n)).filter fun p => decide (p.2 < n)

/-- `n` is a power of two.  The visible sources test this as
`(N > 0) && !(N & (N - 1))` (src/src/benchmark.cpp, line 78); the
equivalent exponent form is used here. -/
def isPow2 (n : Nat) : Bool := decide (2 ^ clog2 n = n)

/-- Modelled from the spec: the builder contract `build(N, tag) -> Network
| DomainError` (spec sections 4.1, 6, 7), with `none` standing for
`DomainError`.  Domain: `N = 0` is always rejected;
`BatcherOddEvenMergeSort` is restricted to powers of two (spec, and the
tests exercise it only on powers of two via `TimesTwoStep`);
`BitonicMergeSort` accepts arbitrary `N` (see `bitonicNet`).  For
`SizeOptimizedSort` the spec promises precomputed literature tables for
`N <= 32`, but neither the table contents nor the impl header holding them
are part of the visible material, so only the spec-pinned trivial case
`N = 1` ("N = 1 yields an empty Network", spec 4.1) is modelled; the model
returns `none` for the unmodelled table entries `2 <= N <= 32` as well as
for the genuinely rejected `N > 32`. -/
def build (n : Nat) (t : NetworkType) : Option (List (Nat × Nat)) :=
  if n = 0 then none
  else
    match t with
    | .BubbleSort => some (bubbleNet n)
    | .InsertionSort => some (insertionNet n)
    | .BoseNelsonSort => some (boseNelsonNet n)
    | .BatcherOddEvenMergeSort =>
      if isPow2 n then some (batcherNet n) else none
    | .BitonicMergeSort => some (bitonicNet n)
    | .SizeOptimizedSort => if n = 1 then some [] else none

/-- The public wrapper `tcc::SortingNetwork<N, NWT>::operator()(T*, comp)`
(src/include/sorting_network_cpp/sorting_network.hpp, lines 41-46):
`static_assert(N > 0)` rejects width zero at build time (modelled as
`none`), the body runs the built network only `if constexpr (N > 1)`, so a
width-one buffer is returned untouched. -/
def SortingNetwork.run (n : Nat) (t : NetworkType) (comp : α → α → Bool)
    (l : List α) : Option (List α) :=
  if n = 0 then none
  else if n = 1 then some l
  else (build n t).map fun net => applyNetwork net comp l

/-- The wrapper with the algorithm tag left to its default:
`template <size_t N, NetworkType NWT = NetworkType::BoseNelsonSort>`
(src/include/sorting_network_cpp/sorting_network.hpp, line 17). -/
def SortingNetwork.runDefault (n : Nat) (comp : α → α → Bool) (l : List α) :
    Option (List α) :=
  SortingNetwork.run n NetworkType.BoseNelsonSort comp l

/-- A strict weak order, packaged as the executable comparator the
executor receives: irreflexive, transitive, with transitive
incomparability (the negation is transitive). -/
def IsSWO (comp : α → α → Bool) : Prop :=
  (∀ a, comp a a = false) ∧
    (∀ a b c, comp a b = true → comp b c = true → comp a c = true) ∧
    (∀ a b c, comp a b = false → comp b c = false → comp a c = false)

/-- The orderedness check of the test harness
(`IsOrdered`, src/test/sorting_network_tests.cpp, lines 102-111): walk the
buffer once and fail if any element precedes its predecessor under the
comparator. -/
def IsOrdered (comp : α → α → Bool) : List α → Bool
  | a :: b :: rest => !comp b a && IsOrdered comp (b :: rest)
  | _ => true

/-- The buffer is non-decreasing under the comparator: no adjacent
element precedes its predecessor (the property the test harness checks
with `IsOrdered`). -/
abbrev SortedUnder (comp : α → α → Bool) (l : List α) : Prop :=
  IsOrdered comp l = true

/-- The benchmark's branch-free compare-and-swap specialization for
`float` (src/src/benchmark.cpp, lines 29-37):
`operator()(float& a, float& b, C comp) const { if (a > b) std::swap(a, b); }`.
It receives the comparator `comp` but does not consult it; the swap
condition is the hard-coded `a > b`.  Float values are modelled by `Int`:
the specialization only compares and moves the values (no arithmetic), so
any linearly ordered carrier is an exact model of the non-NaN floats. -/
def cswapFloatAt (comp : Int → Int → Bool) (l : List Int) (i j : Nat) :
    List Int :=
  match l[i]?, l[j]? with
  | some a, some b => if b < a then (l.set i b).set j a else l
  | _, _ => l

/-- The executor replay loop when the element type is `float`, so that
each compare-exchange goes through the benchmark's `CompareAndSwap<float, C>`
specialization instead of the default branchy functor. -/
def applyNetworkFloat (net : List (Nat × Nat)) (comp : Int → Int → Bool)
    (l : List Int) : List Int :=
  net.foldl (fun acc p => cswapFloatAt comp acc p.1 p.2) l

/-- The ascending comparator `std::less`, the executor's default when the
caller omits one (natural ordering). -/
def intLt (a b : Int) : Bool := decide (a < b)

/-- The descending comparator `std::greater` (used by the tests to
produce reverse-sorted inputs). -/
def intGt (a b : Int) : Bool := decide (b < a)

/-- Functional view of the buffer used by the correctness development: the
executor's compare-exchange as an update of a total map from positions to
values (pair `(i, j)`: if the value at `j` precedes the value at `i`,
exchange them). -/
def cswapF {α : Type u} (comp : α → α → Bool) (f : Nat → α) (i j : Nat) : Nat → α :=
  fun t =>
    if comp (f j) (f i) then
      if t = i then f j else if t = j then f i else f t
    else f t

/-- The functional executor replay. -/
def applyNetF {α : Type u} (net : List (Nat × Nat)) (comp : α → α → Bool) (f : Nat → α) :
    Nat → α :=
  net.foldl (fun g p => cswapF comp g p.1 p.2) f

/-- The natural comparator on `Bool`: `false` precedes `true`. -/
def bblt (a b : Bool) : Bool := !a && b

/-- No inversion among the first `n` positions of a 0/1 buffer. -/
def BSortedOn (g : Nat → Bool) (n : Nat) : Prop :=
  ∀ t, t + 1 < n → g t = true → g (t + 1) = true

/-- The network sorts every 0/1 buffer of width `n` (the hypothesis of the
0/1 principle). -/
def SortsBool (net : List (Nat × Nat)) (n : Nat) : Prop :=
  ∀ g : Nat → Bool, BSortedOn (applyNetF net bblt g) n

/-- The 0/1 window `[lo, lo + sz)` ascends with threshold `a`: zeros below
`a`, ones from `a` on. -/
def AscWin (g : Nat → Bool) (lo sz a : Nat) : Prop :=
  ∀ t, t < sz → g (lo + t) = decide (a ≤ t)

/-- The 0/1 window `[lo, lo + sz)` carries a single block of ones
(positions `[a, b)`): one monotone rise and one fall. -/
def LowWin (g : Nat → Bool) (lo sz a b : Nat) : Prop :=
  ∀ t, t < sz → g (lo + t) = decide (a ≤ t ∧ t < b)

/-- The 0/1 window `[lo, lo + sz)` carries ones at both ends (positions
`< a` and `≥ b`): one fall and one rise. -/
def HighWin (g : Nat → Bool) (lo sz a b : Nat) : Prop :=
  ∀ t, t < sz → g (lo + t) = decide (t < a ∨ b ≤ t)

/-- The 0/1 window is bitonic: a single block of ones or ones at both
ends (every rotation of a sorted 0/1 window). -/
def BitonicWin (g : Nat → Bool) (lo sz : Nat) : Prop :=
  (∃ a b, LowWin g lo sz a b) ∨ (∃ a b, HighWin g lo sz a b)

/-- The positions of the window `[lo, lo + sz)` as a list. -/
def winList (lo sz : Nat) : List Nat := (List.range sz).map (lo + ·)

/-- Number of ones of a 0/1 buffer over a list of positions. -/
def cntOn (g : Nat → Bool) (L : List Nat) : Nat := (L.filter fun t => g t).length

/-! ## Structural bounds of the built networks -/

theorem mem_bubbleNet {n : Nat} {p : Nat × Nat} (hp : p ∈ bubbleNet n) :
    p.1 < p.2 ∧ p.2 < n := by
  simp only [bubbleNet, List.mem_flatten, List.mem_map, List.mem_range] at hp
  obtain ⟨L, ⟨i, hi, rfl⟩, hpL⟩ := hp
  simp only [List.mem_map, List.mem_range] at hpL
  obtain ⟨j, hj, rfl⟩ := hpL
  simp only []
  omega

theorem mem_insertionNet {n : Nat} {p : Nat × Nat} (hp : p ∈ insertionNet n) :
    p.1 < p.2 ∧ p.2 < n := by
  simp only [insertionNet, List.mem_flatten, List.mem_map, List.mem_range] at hp
  obtain ⟨L, ⟨i, hi, rfl⟩, hpL⟩ := hp
  simp only [List.mem_map, List.mem_range] at hpL
  obtain ⟨t, ht, rfl⟩ := hpL
  simp only []
  omega

theorem PBracket_bounds (s : Nat) : ∀ i x j y, x + y ≤ s →
    ∀ p ∈ PBracket i x j y,
      (i ≤ p.1 ∧ p.1 < i + x) ∧ (j ≤ p.2 ∧ p.2 < j + y) := by
  induction s with
  | zero =>
    intro i x j y hs p hp
    rw [PBracket] at hp
    rw [if_pos (by omega : x = 0 ∨ y = 0)] at hp
    simp at hp
  | succ s ih =>
    intro i x j y hs p hp
    rw [PBracket] at hp
    by_cases h0 : x = 0 ∨ y = 0
    · rw [if_pos h0] at hp; simp at hp
    rw [if_neg h0] at hp
    split_ifs at hp with h1 h2 h3 hx
    · simp only [List.mem_cons, List.not_mem_nil, or_false] at hp
      subst hp; dsimp only; omega
    · simp only [List.mem_cons, List.not_mem_nil, or_false] at hp
      rcases hp with rfl | rfl <;> dsimp only <;> omega
    · simp only [List.mem_cons, List.not_mem_nil, or_false] at hp
      rcases hp with rfl | rfl <;> dsimp only <;> omega
    · simp only [List.mem_append] at hp
      rcases hp with (hp | hp) | hp
      · have h := ih i (x / 2) j (y / 2) (by omega) p hp
        omega
      · have h := ih (i + x / 2) (x - x / 2) (j + y / 2) (y - y / 2) (by omega) p hp
        omega
      · have h := ih (i + x / 2) (x - x / 2) j (y / 2) (by omega) p hp
        omega
    · simp only [List.mem_append] at hp
      rcases hp with (hp | hp) | hp
      · have h := ih i (x / 2) j ((y + 1) / 2) (by omega) p hp
        omega
      · have h := ih (i + x / 2) (x - x / 2) (j + (y + 1) / 2) (y - (y + 1) / 2)
          (by omega) p hp
        omega
      · have h := ih (i + x / 2) (x - x / 2) j ((y + 1) / 2) (by omega) p hp
        omega

theorem PStar_bounds (s : Nat) : ∀ i m, m ≤ s →
    ∀ p ∈ PStar i m, i ≤ p.1 ∧ p.1 < p.2 ∧ p.2 < i + m := by
  induction s with
  | zero =>
    intro i m hs p hp
    rw [PStar] at hp
    rw [dif_pos (by omega : m ≤ 1)] at hp
    simp at hp
  | succ s ih =>
    intro i m hs p hp
    rw [PStar] at hp
    by_cases hm : m ≤ 1
    · rw [dif_pos hm] at hp; simp at hp
    rw [dif_neg hm] at hp
    simp only [List.mem_append] at hp
    rcases hp with (hp | hp) | hp
    · have h := ih i (m / 2) (by omega) p hp
      omega
    · have h := ih (i + m / 2) (m - m / 2) (by omega) p hp
      omega
    · have h := PBracket_bounds (m / 2 + (m - m / 2)) i (m / 2) (i + m / 2)
        (m - m / 2) (by omega) p hp
      omega

theorem mem_boseNelsonNet {n : Nat} {p : Nat × Nat} (hp : p ∈ boseNelsonNet n) :
    p.1 < p.2 ∧ p.2 < n := by
  have h := PStar_bounds n 0 n (by omega) p hp
  omega

theorem oemNet_bounds : ∀ k, ∀ p ∈ oemNet k, p.1 < p.2 ∧ p.2 < 2 ^ (k + 1) := by
  intro k
  induction k with
  | zero => intro p hp; simp only [oemNet, List.mem_singleton] at hp; subst hp; simp
  | succ k ih =>
    intro p hp
    simp only [oemNet, scaleNet, List.mem_append, List.mem_map, List.mem_range] at hp
    rcases hp with (⟨q, hq, rfl⟩ | ⟨q, hq, rfl⟩) | ⟨s, hs, rfl⟩
    · have h := ih q hq
      have h2 : (0:Nat) < 2 ^ (k + 1) := Nat.pos_pow_of_pos _ (by omega)
      simp only []
      constructor
      · omega
      · have : q.2 < 2 ^ (k + 1) := h.2
        calc 2 * q.2 < 2 * 2 ^ (k + 1) := by omega
        _ = 2 ^ (k + 2) := by ring
    · have h := ih q hq
      simp only []
      constructor
      · omega
      · have hq2 : q.2 + 1 ≤ 2 ^ (k + 1) := h.2
        have : 2 * q.2 + 1 < 2 * 2 ^ (k + 1) := by omega
        calc 2 * q.2 + 1 < 2 * 2 ^ (k + 1) := this
        _ = 2 ^ (k + 2) := by ring
    · have h2 : (0:Nat) < 2 ^ (k + 1) := Nat.pos_pow_of_pos _ (by omega)
      have : 2 ^ (k + 2) = 2 * 2 ^ (k + 1) := by ring
      simp only []
      omega

theorem batcherK_bounds : ∀ k, ∀ p ∈ batcherK k, p.1 < p.2 ∧ p.2 < 2 ^ k := by
  intro k
  induction k with
  | zero => intro p hp; simp [batcherK] at hp
  | succ k ih =>
    intro p hp
    simp only [batcherK, scaleNet, List.mem_append, List.mem_map] at hp
    have hpow : 2 ^ (k + 1) = 2 ^ k + 2 ^ k := by ring
    rcases hp with (hp | ⟨q, hq, rfl⟩) | hp
    · have h := ih p hp
      omega
    · have h := ih q hq
      simp only []
      omega
    · have h := oemNet_bounds k p hp
      omega

theorem bitonicCleanK_bounds : ∀ k lo, ∀ p ∈ bitonicCleanK lo k,
    lo ≤ p.1 ∧ p.1 < p.2 ∧ p.2 < lo + 2 ^ k := by
  intro k
  induction k with
  | zero => intro lo p hp; simp [bitonicCleanK] at hp
  | succ k ih =>
    intro lo p hp
    simp only [bitonicCleanK, List.mem_append, List.mem_map, List.mem_range] at hp
    have hpow : 2 ^ (k + 1) = 2 ^ k + 2 ^ k := by ring
    rcases hp with (⟨t, ht, rfl⟩ | hp) | hp
    · simp only []
      omega
    · have h := ih lo p hp
      omega
    · have h := ih (lo + 2 ^ k) p hp
      omega

theorem bitonicFlipK_bounds {lo k : Nat} : ∀ p ∈ bitonicFlipK lo k,
    lo ≤ p.1 ∧ p.1 < p.2 ∧ p.2 < lo + 2 ^ (k + 1) := by
  intro p hp
  simp only [bitonicFlipK, List.mem_map, List.mem_range] at hp
  obtain ⟨t, ht, rfl⟩ := hp
  have hpow : 2 ^ (k + 1) = 2 ^ k + 2 ^ k := by ring
  have hk : (0:Nat) < 2 ^ k := Nat.pos_pow_of_pos _ (by omega)
  simp only []
  omega

theorem bitonicK_bounds : ∀ k lo, ∀ p ∈ bitonicK lo k,
    lo ≤ p.1 ∧ p.1 < p.2 ∧ p.2 < lo + 2 ^ k := by
  intro k
  induction k with
  | zero => intro lo p hp; simp [bitonicK] at hp
  | succ k ih =>
    intro lo p hp
    simp only [bitonicK, List.mem_append] at hp
    have hpow : 2 ^ (k + 1) = 2 ^ k + 2 ^ k := by ring
    rcases hp with (hp | hp) | (hp | hp) | hp
    · have h := ih lo p hp; omega
    · have h := ih (lo + 2 ^ k) p hp; omega
    · have h := bitonicFlipK_bounds p hp; omega
    · have h := bitonicCleanK_bounds k lo p hp; omega
    · have h := bitonicCleanK_bounds k (lo + 2 ^ k) p hp; omega

theorem mem_bitonicNet {n : Nat} {p : Nat × Nat} (hp : p ∈ bitonicNet n) :
    p.1 < p.2 ∧ p.2 < n := by
  simp only [bitonicNet, List.mem_filter, decide_eq_true_eq] at hp
  have h := bitonicK_bounds (clog2 n) 0 p hp.1
  exact ⟨h.2.1, hp.2⟩

theorem mem_batcherNet {n : Nat} (hn : isPow2 n = true) {p : Nat × Nat}
    (hp : p ∈ batcherNet n) : p.1 < p.2 ∧ p.2 < n := by
  have h := batcherK_bounds (clog2 n) p hp
  have hn2 : 2 ^ clog2 n = n := by
    simpa [isPow2, decide_eq_true_eq] using hn
  rw [hn2] at h
  exact h

/-- The width is at most the padded power-of-two width. -/
theorem le_two_pow_clog2 (n : Nat) : n ≤ 2 ^ clog2 n := by
  unfold clog2
  cases hf : (List.range (n + 1)).find? (fun k => decide (n ≤ 2 ^ k)) with
  | none =>
    exfalso
    have h := List.find?_eq_none.mp hf n (by simp [List.mem_range])
    simp only [decide_eq_true_eq] at h
    exact h (Nat.le_of_lt (Nat.lt_two_pow n))
  | some k =>
    have h := List.find?_some hf
    simpa using h

/-- Every pair of every built network is in range for its width. -/
theorem build_bounds {n : Nat} {t : NetworkType} {net : List (Nat × Nat)}
    (hb : build n t = some net) : ∀ p ∈ net, p.1 < p.2 ∧ p.2 < n := by
  intro p hp
  rw [build.eq_def] at hb
  by_cases hn : n = 0
  · rw [if_pos hn] at hb; exact absurd hb (by simp)
  rw [if_neg hn] at hb
  cases t with
  | BubbleSort =>
    obtain rfl : bubbleNet n = net := by simpa using hb
    exact mem_bubbleNet hp
  | InsertionSort =>
    obtain rfl : insertionNet n = net := by simpa using hb
    exact mem_insertionNet hp
  | BoseNelsonSort =>
    obtain rfl : boseNelsonNet n = net := by simpa using hb
    exact mem_boseNelsonNet hp
  | BatcherOddEvenMergeSort =>
    by_cases hpow : isPow2 n
    · rw [if_pos hpow] at hb
      obtain rfl : batcherNet n = net := by simpa using hb
      exact mem_batcherNet hpow hp
    · simp [hpow] at hb
  | BitonicMergeSort =>
    obtain rfl : bitonicNet n = net := by simpa using hb
    exact mem_bitonicNet hp
  | SizeOptimizedSort =>
    by_cases h1 : n = 1
    · subst h1
      obtain rfl : ([] : List (Nat × Nat)) = net := by simpa using hb
      simp at hp
    · simp [h1] at hb

/-! ## Generic executor lemmas -/

theorem applyNetwork_nil (comp : α → α → Bool) (l : List α) :
    applyNetwork [] comp l = l := rfl

theorem applyNetwork_cons (p : Nat × Nat) (net : List (Nat × Nat))
    (comp : α → α → Bool) (l : List α) :
    applyNetwork (p :: net) comp l =
      applyNetwork net comp (cswapAt comp l p.1 p.2) := rfl

theorem cons_set_perm : ∀ (xs : List α) (m : Nat) (h : m < xs.length) (x : α),
    (xs.get ⟨m, h⟩ :: xs.set m x).Perm (x :: xs) := by
  intro xs
  induction xs with
  | nil => intro m h; simp at h
  | cons y ys ih =>
    intro m h x
    cases m with
    | zero =>
      simp only [List.get, List.set]
      exact List.Perm.swap x y ys
    | succ k =>
      simp only [List.get, List.set]
      have h' : k < ys.length := by simpa using h
      exact (List.Perm.swap y (ys.get ⟨k, h'⟩) (ys.set k x)).trans
        (((ih k h' x).cons y).trans (List.Perm.swap x y ys))

theorem set_set_perm : ∀ (l : List α) (i j : Nat) (hi : i < l.length)
    (hj : j < l.length),
    ((l.set i (l.get ⟨j, hj⟩)).set j (l.get ⟨i, hi⟩)).Perm l := by
  intro l
  induction l with
  | nil => intro i j hi; simp at hi
  | cons x xs ih =>
    intro i j hi hj
    cases i with
    | zero =>
      cases j with
      | zero => simp [List.set]
      | succ k =>
        have hk : k < xs.length := by simpa using hj
        simp only [List.get, List.set]
        exact cons_set_perm xs k hk x
    | succ m =>
      cases j with
      | zero =>
        have hm : m < xs.length := by simpa using hi
        simp only [List.get, List.set]
        exact cons_set_perm xs m hm x
      | succ k =>
        have hm : m < xs.length := by simpa using hi
        have hk : k < xs.length := by simpa using hj
        simp only [List.get, List.set]
        exact (ih m k hm hk).cons x

theorem cswapAt_perm (comp : α → α → Bool) (l : List α) (i j : Nat) :
    (cswapAt comp l i j).Perm l := by
  unfold cswapAt
  split
  · rename_i a b ha hb
    split
    · have hi : i < l.length := by
        by_contra h
        rw [List.getElem?_eq_none (by omega)] at ha
        exact Option.noConfusion ha
      have hj : j < l.length := by
        by_contra h
        rw [List.getElem?_eq_none (by omega)] at hb
        exact Option.noConfusion hb
      have ha' : a = l.get ⟨i, hi⟩ := by
        rw [List.getElem?_eq_getElem hi] at ha
        simpa [List.get_eq_getElem] using (Option.some.inj ha).symm
      have hb' : b = l.get ⟨j, hj⟩ := by
        rw [List.getElem?_eq_getElem hj] at hb
        simpa [List.get_eq_getElem] using (Option.some.inj hb).symm
      subst ha'; subst hb'
      exact set_set_perm l i j hi hj
    · exact List.Perm.refl l
  · exact List.Perm.refl l

theorem applyNetwork_perm (net : List (Nat × Nat)) (comp : α → α → Bool)
    (l : List α) : (applyNetwork net comp l).Perm l := by
  induction net generalizing l with
  | nil => exact List.Perm.refl l
  | cons p rest ih =>
    rw [applyNetwork_cons]
    exact (ih _).trans (cswapAt_perm comp l p.1 p.2)

theorem applyNetwork_length (net : List (Nat × Nat)) (comp : α → α → Bool)
    (l : List α) : (applyNetwork net comp l).length = l.length :=
  (applyNetwork_perm net comp l).length_eq

/-- The test harness's orderedness check is the no-adjacent-inversion
chain. -/
theorem sortedUnder_iff_chain' (comp : α → α → Bool) :
    ∀ l : List α, SortedUnder comp l ↔
      l.Chain' fun a b => comp b a = false := by
  intro l
  induction l with
  | nil => simp [SortedUnder, IsOrdered]
  | cons a tl ih =>
    cases tl with
    | nil => simp [SortedUnder, IsOrdered]
    | cons b rest =>
      rw [SortedUnder, IsOrdered, List.chain'_cons, Bool.and_eq_true,
        Bool.not_eq_true']
      exact and_congr Iff.rfl ih

/-- In a sorted buffer, under a strict weak order, no element strictly
precedes an element at a lower index. -/
theorem sorted_no_inversion (comp : α → α → Bool) (l : List α)
    (hswo : IsSWO comp) (hsort : SortedUnder comp l) :
    ∀ (i j : Nat) (hj : j < l.length) (hij : i < j),
      comp (l.get ⟨j, hj⟩) (l.get ⟨i, by omega⟩) = false := by
  have htrans : Transitive (fun a b : α => comp b a = false) := by
    intro a b c hab hbc
    exact hswo.2.2 c b a hbc hab
  have hpw : l.Pairwise (fun a b => comp b a = false) := by
    have : IsTrans α (fun a b : α => comp b a = false) := ⟨htrans⟩
    exact (List.chain'_iff_pairwise).mp ((sortedUnder_iff_chain' comp l).mp hsort)
  intro i j hj hij
  exact List.pairwise_iff_get.mp hpw ⟨i, by omega⟩ ⟨j, hj⟩ hij

theorem cswapAt_of_sorted (comp : α → α → Bool) (l : List α)
    (hswo : IsSWO comp) (hsort : SortedUnder comp l) {i j : Nat}
    (hij : i < j) (hj : j < l.length) : cswapAt comp l i j = l := by
  have hi : i < l.length := by omega
  unfold cswapAt
  rw [List.getElem?_eq_getElem hi, List.getElem?_eq_getElem hj]
  have h := sorted_no_inversion comp l hswo hsort i j hj hij
  simp only [List.get_eq_getElem] at h
  simp [h]

theorem applyNetwork_of_no_swap (net : List (Nat × Nat))
    (comp : α → α → Bool) (l : List α)
    (h : ∀ p ∈ net, cswapAt comp l p.1 p.2 = l) :
    applyNetwork net comp l = l := by
  induction net with
  | nil => rfl
  | cons p rest ih =>
    rw [applyNetwork_cons, h p (List.mem_cons_self p rest)]
    exact ih fun q hq => h q (List.mem_cons_of_mem p hq)

/-- The ascending comparator is a strict weak order. -/
theorem intLt_isSWO : IsSWO intLt := by
  refine ⟨fun a => ?_, fun a b c h1 h2 => ?_, fun a b c h1 h2 => ?_⟩ <;>
    simp [intLt] at * <;> omega

/-- The descending comparator is a strict weak order. -/
theorem intGt_isSWO : IsSWO intGt := by
  refine ⟨fun a => ?_, fun a b c h1 h2 => ?_, fun a b c h1 h2 => ?_⟩ <;>
    simp [intGt] at * <;> omega

theorem cswapFloatAt_eq_cswapAt (comp : Int → Int → Bool)
    (hc : ∀ a b, comp a b = intLt a b) (l : List Int) (i j : Nat) :
    cswapFloatAt comp l i j = cswapAt comp l i j := by
  rcases hgi : l[i]? with _ | a <;> rcases hgj : l[j]? with _ | b <;>
    simp [cswapFloatAt, cswapAt, hgi, hgj, hc, intLt]

/-! ## Claim theorems -/

/-- C2 counterexample: the branch-free float compare-and-swap
specialization of the benchmark ignores the supplied comparator, so for
the descending comparator `std::greater` (a strict weak order) it does not
reproduce the branchy executor: on the network `[(0, 1)]` built for
width 2 and the buffer `[0, 1]`, the branchy form swaps (descending order)
while the specialization leaves the buffer ascending. -/
theorem C2_counterexample :
    IsSWO intGt ∧ build 2 NetworkType.BubbleSort = some [(0, 1)] ∧
      applyNetworkFloat [(0, 1)] intGt [0, 1] = [0, 1] ∧
      applyNetwork [(0, 1)] intGt [0, 1] = [1, 0] ∧
      applyNetworkFloat [(0, 1)] intGt [0, 1] ≠
        applyNetwork [(0, 1)] intGt [0, 1] :=
  ⟨intGt_isSWO, by decide, by decide, by decide, by decide⟩

/-- C2 (amended): the branch-free float compare-and-swap specialization
produces the same buffer as the default branchy compare-and-swap for every
network and buffer when the comparator is the ascending natural order
`std::less` (the only comparator the benchmark uses it with); for other
strict-weak-order comparators the specialization's hard-coded `a > b` test
need not agree with the comparator. -/
theorem C2_float_specialization_agrees_on_less (net : List (Nat × Nat))
    (comp : Int → Int → Bool) (hc : ∀ a b, comp a b = intLt a b)
    (l : List Int) : applyNetworkFloat net comp l = applyNetwork net comp l := by
  induction net generalizing l with
  | nil => rfl
  | cons p rest ih =>
    show applyNetworkFloat rest comp (cswapFloatAt comp l p.1 p.2) =
      applyNetwork rest comp (cswapAt comp l p.1 p.2)
    rw [cswapFloatAt_eq_cswapAt comp hc]
    exact ih _

/-- C2 witness: the amended equivalence at the width-2 network, the
ascending comparator and the buffer `[2, 1]`. -/
theorem C2_float_specialization_witness :
    applyNetworkFloat [(0, 1)] intLt [2, 1] =
      applyNetwork [(0, 1)] intLt [2, 1] :=
  C2_float_specialization_agrees_on_less [(0, 1)] intLt (fun _ _ => rfl) [2, 1]

/-- C3 counterexample: building the BitonicMerge network at the
non-power-of-two width 6 does not fail; it yields a (non-empty) network,
exactly as the repository's test `RandomBitonicMergeSort` requires when
instantiating `SortingNetwork<6, BitonicMergeSort>`. -/
theorem C3_counterexample :
    build 6 NetworkType.BitonicMergeSort = some (bitonicNet 6) ∧
      bitonicNet 6 ≠ [] := by
  constructor
  · decide
  · decide

/-- C3 (amended): building with tag BatcherOddEvenMerge for a
non-power-of-two width N fails with DomainError at build time, while
BitonicMerge accepts non-power-of-two widths (for example N = 6, the width
the repository's tests exercise). -/
theorem C3_batcher_rejects_non_pow2 (n : Nat) (hn : isPow2 n = false) :
    build n NetworkType.BatcherOddEvenMergeSort = none ∧
      (build 6 NetworkType.BitonicMergeSort).isSome = true := by
  refine ⟨?_, by decide⟩
  rw [build.eq_def]
  by_cases h0 : n = 0
  · rw [if_pos h0]
  · rw [if_neg h0]
    simp [hn]

/-- C3 witness: the amended statement at the concrete width 6. -/
theorem C3_batcher_rejects_non_pow2_witness :
    build 6 NetworkType.BatcherOddEvenMergeSort = none ∧
      (build 6 NetworkType.BitonicMergeSort).isSome = true :=
  C3_batcher_rejects_non_pow2 6 (by decide)

/-- C5: for every supported (N, tag), every strict-weak-order comparator
and every length-N buffer already non-decreasing under the comparator,
applying the built network leaves the buffer unchanged, no
compare-exchange pair performs a swap, and applying the network twice
equals applying it once. -/
theorem C5_sorted_buffer_fixed (n : Nat) (t : NetworkType)
    (net : List (Nat × Nat)) (comp : α → α → Bool) (l : List α)
    (hb : build n t = some net) (hswo : IsSWO comp) (hlen : l.length = n)
    (hsort : SortedUnder comp l) :
    applyNetwork net comp l = l ∧
      (∀ p ∈ net, cswapAt comp l p.1 p.2 = l) ∧
      applyNetwork net comp (applyNetwork net comp l) =
        applyNetwork net comp l := by
  have hnoswap : ∀ p ∈ net, cswapAt comp l p.1 p.2 = l := by
    intro p hp
    have hbd := build_bounds hb p hp
    exact cswapAt_of_sorted comp l hswo hsort hbd.1 (by omega)
  have happ : applyNetwork net comp l = l :=
    applyNetwork_of_no_swap net comp l hnoswap
  exact ⟨happ, hnoswap, by rw [happ]; exact happ⟩

/-- C5 witness: the width-3 Bubble network on the sorted buffer
`[1, 2, 3]` under the ascending comparator. -/
theorem C5_sorted_buffer_fixed_witness :
    applyNetwork (bubbleNet 3) intLt [1, 2, 3] = [1, 2, 3] ∧
      (∀ p ∈ bubbleNet 3, cswapAt intLt [1, 2, 3] p.1 p.2 = [1, 2, 3]) ∧
      applyNetwork (bubbleNet 3) intLt
          (applyNetwork (bubbleNet 3) intLt [1, 2, 3]) =
        applyNetwork (bubbleNet 3) intLt [1, 2, 3] :=
  C5_sorted_buffer_fixed 3 NetworkType.BubbleSort (bubbleNet 3) intLt
    [1, 2, 3] rfl intLt_isSWO rfl (by decide)

/-- C6: every compare-exchange pair (low, high) of every built network
satisfies 0 ≤ low, low < high and high < N, so every replayed comparison
indexes the width-N buffer in bounds. -/
theorem C6_pairs_in_bounds (n : Nat) (t : NetworkType)
    (net : List (Nat × Nat)) (hb : build n t = some net) :
    ∀ p ∈ net, 0 ≤ p.1 ∧ p.1 < p.2 ∧ p.2 < n := by
  intro p hp
  have h := build_bounds hb p hp
  omega

/-- C6 witness: the pair (1, 2) of the width-4 Bubble network. -/
theorem C6_pairs_in_bounds_witness :
    0 ≤ (1, 2).1 ∧ (1, 2).1 < (1, 2).2 ∧ (1, 2).2 < 4 :=
  C6_pairs_in_bounds 4 NetworkType.BubbleSort (bubbleNet 4) rfl (1, 2)
    (by decide)

/-- C7: the width-4 Bubble network sorts `[4, 3, 2, 1]` to `[1, 2, 3, 4]`
under the ascending comparator, and to `[4, 3, 2, 1]` (unchanged) under
the descending comparator. -/
theorem C7_bubble_width4_concrete :
    SortingNetwork.run 4 NetworkType.BubbleSort intLt
        ([4, 3, 2, 1] : List Int) = some [1, 2, 3, 4] ∧
      SortingNetwork.run 4 NetworkType.BubbleSort intGt
        ([4, 3, 2, 1] : List Int) = some [4, 3, 2, 1] := by
  constructor
  · decide
  · decide

/-- C8: for width 1 every tag builds the empty network, and applying the
wrapper (which skips the implementation entirely for N = 1) returns any
one-element buffer unchanged. -/
theorem C8_width_one_trivial (t : NetworkType) (comp : α → α → Bool)
    (l : List α) (hlen : l.length = 1) :
    build 1 t = some [] ∧ applyNetwork [] comp l = l ∧
      SortingNetwork.run 1 t comp l = some l := by
  refine ⟨?_, rfl, rfl⟩
  cases t <;> first
    | rfl
    | (rw [build.eq_def]
       simp only [if_neg (by omega : (1 : Nat) ≠ 0)]
       rw [boseNelsonNet, PStar]
       rfl)

/-- C8 witness: width 1 with the Bose-Nelson tag (the default), the
ascending comparator and the buffer `[7]`. -/
theorem C8_width_one_trivial_witness :
    build 1 NetworkType.BoseNelsonSort = some [] ∧
      applyNetwork [] intLt [(7 : Int)] = [(7 : Int)] ∧
      SortingNetwork.run 1 NetworkType.BoseNelsonSort intLt [(7 : Int)] =
        some [(7 : Int)] :=
  C8_width_one_trivial NetworkType.BoseNelsonSort intLt [(7 : Int)] rfl

/-- C9: for every supported (N, tag), every comparator and every length-N
buffer, the buffer after apply is a permutation of the buffer before
apply: the multiset of elements is preserved. -/
theorem C9_apply_permutes (n : Nat) (t : NetworkType)
    (net : List (Nat × Nat)) (comp : α → α → Bool) (l : List α)
    (hb : build n t = some net) (hlen : l.length = n) :
    (applyNetwork net comp l).Perm l ∧
      ((applyNetwork net comp l : List α) : Multiset α) = (l : Multiset α) := by
  refine ⟨applyNetwork_perm net comp l, ?_⟩
  exact Multiset.coe_eq_coe.mpr (applyNetwork_perm net comp l)

/-- C9 witness: the width-3 Bubble network applied to `[3, 1, 2]`. -/
theorem C9_apply_permutes_witness :
    (applyNetwork (bubbleNet 3) intLt [3, 1, 2]).Perm [3, 1, 2] ∧
      ((applyNetwork (bubbleNet 3) intLt [3, 1, 2] : List Int) :
        Multiset Int) = (([3, 1, 2] : List Int) : Multiset Int) :=
  C9_apply_permutes 3 NetworkType.BubbleSort (bubbleNet 3) intLt [3, 1, 2]
    rfl rfl

/-- C10: leaving the algorithm tag to its default is the same as
requesting the Bose-Nelson construction (the template default
`NWT = NetworkType::BoseNelsonSort`), for every width, comparator and
buffer. -/
theorem C10_default_tag_is_bose_nelson (n : Nat) (comp : α → α → Bool)
    (l : List α) :
    SortingNetwork.runDefault n comp l =
      SortingNetwork.run n NetworkType.BoseNelsonSort comp l ∧
      build n NetworkType.BoseNelsonSort =
        (if n = 0 then none else some (boseNelsonNet n)) :=
  ⟨rfl, rfl⟩

/-! ## Functional executor machinery -/

theorem applyNetF_nil (comp : α → α → Bool) (f : Nat → α) :
    applyNetF [] comp f = f := rfl

theorem applyNetF_cons (p : Nat × Nat) (net : List (Nat × Nat))
    (comp : α → α → Bool) (f : Nat → α) :
    applyNetF (p :: net) comp f = applyNetF net comp (cswapF comp f p.1 p.2) :=
  rfl

theorem applyNetF_append (n1 n2 : List (Nat × Nat)) (comp : α → α → Bool)
    (f : Nat → α) :
    applyNetF (n1 ++ n2) comp f = applyNetF n2 comp (applyNetF n1 comp f) :=
  List.foldl_append _ _ _ _

theorem cswapF_frame (comp : α → α → Bool) (f : Nat → α) {i j t : Nat}
    (hi : t ≠ i) (hj : t ≠ j) : cswapF comp f i j t = f t := by
  unfold cswapF
  split <;> simp [hi, hj]

theorem applyNetF_frame (net : List (Nat × Nat)) (comp : α → α → Bool)
    (P : Nat → Prop) (hnet : ∀ p ∈ net, P p.1 ∧ P p.2) :
    ∀ (f : Nat → α) (t : Nat), ¬ P t → applyNetF net comp f t = f t := by
  induction net with
  | nil => intro f t _; rfl
  | cons p rest ih =>
    intro f t ht
    rw [applyNetF_cons]
    have hp := hnet p (List.mem_cons_self p rest)
    have hrest : ∀ q ∈ rest, P q.1 ∧ P q.2 := fun q hq =>
      hnet q (List.mem_cons_of_mem p hq)
    rw [ih hrest _ t ht]
    exact cswapF_frame comp f (fun h => ht (h ▸ hp.1)) (fun h => ht (h ▸ hp.2))

theorem applyNetF_congrOn (net : List (Nat × Nat)) (comp : α → α → Bool)
    (P : Nat → Prop) (hnet : ∀ p ∈ net, P p.1 ∧ P p.2) :
    ∀ (f f' : Nat → α), (∀ t, P t → f t = f' t) →
      ∀ t, P t → applyNetF net comp f t = applyNetF net comp f' t := by
  induction net with
  | nil => intro f f' hf t ht; exact hf t ht
  | cons p rest ih =>
    intro f f' hf t ht
    rw [applyNetF_cons, applyNetF_cons]
    have hp := hnet p (List.mem_cons_self p rest)
    have hrest : ∀ q ∈ rest, P q.1 ∧ P q.2 := fun q hq =>
      hnet q (List.mem_cons_of_mem p hq)
    refine ih hrest _ _ ?_ t ht
    intro s hs
    unfold cswapF
    rw [hf p.1 hp.1, hf p.2 hp.2]
    split <;> [skip; exact hf s hs]
    split
    · rfl
    split
    · rfl
    exact hf s hs

theorem cswapF_bblt_left (g : Nat → Bool) {i j : Nat} (hij : i ≠ j) :
    cswapF bblt g i j i = (g i && g j) := by
  unfold cswapF bblt
  cases hgi : g i <;> cases hgj : g j <;> simp [hgi, hgj, hij]

theorem cswapF_bblt_right (g : Nat → Bool) {i j : Nat} (hij : i ≠ j) :
    cswapF bblt g i j j = (g i || g j) := by
  unfold cswapF bblt
  cases hgi : g i <;> cases hgj : g j <;> simp [hgi, hgj, hij, Ne.symm hij]

/-- Replaying a network whose lines all satisfy `P` preserves a constant
value on `P`. -/
theorem applyNetF_bool_const (net : List (Nat × Nat)) (P : Nat → Prop)
    (hnet : ∀ p ∈ net, P p.1 ∧ P p.2) (c : Bool) :
    ∀ g : Nat → Bool, (∀ t, P t → g t = c) →
      ∀ t, P t → applyNetF net bblt g t = c := by
  induction net with
  | nil => intro g hg t ht; exact hg t ht
  | cons p rest ih =>
    intro g hg t ht
    rw [applyNetF_cons]
    have hp := hnet p (List.mem_cons_self p rest)
    have hrest : ∀ q ∈ rest, P q.1 ∧ P q.2 := fun q hq =>
      hnet q (List.mem_cons_of_mem p hq)
    refine ih hrest _ ?_ t ht
    intro s hs
    unfold cswapF
    split <;> [skip; exact hg s hs]
    split
    · exact hg p.2 hp.2
    split
    · exact hg p.1 hp.1
    exact hg s hs

/-- If every one in the window can be blamed on `X`, the same holds after
replaying a network confined to the window. -/
theorem applyNetF_bool_true_source (net : List (Nat × Nat)) (P : Nat → Prop)
    (hnet : ∀ p ∈ net, P p.1 ∧ P p.2) (X : Prop) :
    ∀ g : Nat → Bool, (∀ t, P t → g t = true → X) →
      ∀ t, P t → applyNetF net bblt g t = true → X := by
  induction net with
  | nil => intro g hg t ht hv; exact hg t ht hv
  | cons p rest ih =>
    intro g hg t ht hv
    rw [applyNetF_cons] at hv
    have hp := hnet p (List.mem_cons_self p rest)
    have hrest : ∀ q ∈ rest, P q.1 ∧ P q.2 := fun q hq =>
      hnet q (List.mem_cons_of_mem p hq)
    refine ih hrest _ ?_ t ht hv
    intro s hs hval
    unfold cswapF at hval
    by_cases hc : bblt (g p.2) (g p.1) = true
    · rw [if_pos hc] at hval
      by_cases h1 : s = p.1
      · subst h1
        rw [if_pos rfl] at hval
        exact hg p.2 hp.2 hval
      rw [if_neg h1] at hval
      by_cases h2 : s = p.2
      · subst h2
        rw [if_pos rfl] at hval
        exact hg p.1 hp.1 hval
      rw [if_neg h2] at hval
      exact hg s hs hval
    · rw [if_neg hc] at hval
      exact hg s hs hval

/-- Replaying a stage of pairwise-disjoint comparisons: each pair reads
and writes its own two lines only, so each compare-exchange sees the
original values. -/
theorem applyNetF_stage (comp : α → α → Bool) :
    ∀ (m : Nat) (u v : Nat → Nat),
      (∀ s t, s < m → t < m → u s ≠ v t) →
      (∀ s t, s < m → t < m → u s = u t → s = t) →
      (∀ s t, s < m → t < m → v s = v t → s = t) →
      ∀ f : Nat → α,
        (∀ t, t < m →
          applyNetF ((List.range m).map fun s => (u s, v s)) comp f (u t) =
            (if comp (f (v t)) (f (u t)) then f (v t) else f (u t))) ∧
        (∀ t, t < m →
          applyNetF ((List.range m).map fun s => (u s, v s)) comp f (v t) =
            (if comp (f (v t)) (f (u t)) then f (u t) else f (v t))) ∧
        (∀ x, (∀ t, t < m → x ≠ u t ∧ x ≠ v t) →
          applyNetF ((List.range m).map fun s => (u s, v s)) comp f x = f x) := by
  intro m
  induction m with
  | zero =>
    intro u v _ _ _ f
    exact ⟨fun t ht => by omega, fun t ht => by omega, fun x _ => rfl⟩
  | succ m ih =>
    intro u v huv hu hv f
    have ih' := ih u v (fun s t hs ht => huv s t (by omega) (by omega))
      (fun s t hs ht h => hu s t (by omega) (by omega) h)
      (fun s t hs ht h => hv s t (by omega) (by omega) h) f
    have hdec : (List.range (m + 1)).map (fun s => (u s, v s)) =
        ((List.range m).map fun s => (u s, v s)) ++ [(u m, v m)] := by
      rw [List.range_succ, List.map_append]
      rfl
    have hGum : applyNetF ((List.range m).map fun s => (u s, v s)) comp f (u m)
        = f (u m) := by
      refine ih'.2.2 (u m) fun t ht => ⟨fun h => ?_, huv m t (by omega) (by omega)⟩
      have := hu m t (by omega) (by omega) h
      omega
    have hGvm : applyNetF ((List.range m).map fun s => (u s, v s)) comp f (v m)
        = f (v m) := by
      refine ih'.2.2 (v m) fun t ht => ⟨fun h => (huv t m (by omega) (by omega)) h.symm, fun h => ?_⟩
      have := hv m t (by omega) (by omega) h
      omega
    have humvm : u m ≠ v m := huv m m (by omega) (by omega)
    refine ⟨?_, ?_, ?_⟩
    · intro t ht
      rw [hdec, applyNetF_append, applyNetF_cons, applyNetF_nil]
      by_cases htm : t = m
      · subst htm
        unfold cswapF
        rw [hGum, hGvm, if_pos rfl]
      · have ht' : t < m := by omega
        have h1 : u t ≠ u m := fun h => htm (hu t m (by omega) (by omega) h)
        have h2 : u t ≠ v m := huv t m (by omega) (by omega)
        rw [cswapF_frame comp _ h1 h2]
        exact ih'.1 t ht'
    · intro t ht
      rw [hdec, applyNetF_append, applyNetF_cons, applyNetF_nil]
      by_cases htm : t = m
      · subst htm
        unfold cswapF
        rw [hGum, hGvm]
        split
        · rw [if_neg (Ne.symm humvm), if_pos rfl]
        · rfl
      · have ht' : t < m := by omega
        have h1 : v t ≠ u m := fun h => (huv m t (by omega) (by omega)) h.symm
        have h2 : v t ≠ v m := fun h => htm (hv t m (by omega) (by omega) h)
        rw [cswapF_frame comp _ h1 h2]
        exact ih'.2.1 t ht'
    · intro x hx
      rw [hdec, applyNetF_append, applyNetF_cons, applyNetF_nil]
      have h1 : x ≠ u m := (hx m (by omega)).1
      have h2 : x ≠ v m := (hx m (by omega)).2
      rw [cswapF_frame comp _ h1 h2]
      exact ih'.2.2 x fun t ht => hx t (by omega)

/-- Replaying a network through an injective renaming of the lines acts on
the renamed lines exactly as the network acts on the pulled-back buffer,
and leaves all other lines alone. -/
theorem applyNetF_scale (σ : Nat → Nat) (hinj : ∀ a b, σ a = σ b → a = b)
    (net : List (Nat × Nat)) (comp : α → α → Bool) :
    ∀ f : Nat → α,
      (∀ t, applyNetF (scaleNet σ net) comp f (σ t) =
        applyNetF net comp (fun s => f (σ s)) t) ∧
      (∀ x, (∀ t, x ≠ σ t) → applyNetF (scaleNet σ net) comp f x = f x) := by
  induction net with
  | nil => intro f; exact ⟨fun t => rfl, fun x _ => rfl⟩
  | cons p rest ih =>
    intro f
    have hfun : (fun s => cswapF comp f (σ p.1) (σ p.2) (σ s)) =
        cswapF comp (fun s => f (σ s)) p.1 p.2 := by
      funext s
      unfold cswapF
      by_cases hc : comp (f (σ p.2)) (f (σ p.1)) = true
      · rw [if_pos hc, if_pos hc]
        by_cases h1 : s = p.1
        · subst h1; rw [if_pos rfl, if_pos rfl]
        · rw [if_neg (fun h => h1 (hinj _ _ h)), if_neg h1]
          by_cases h2 : s = p.2
          · subst h2; rw [if_pos rfl, if_pos rfl]
          · rw [if_neg (fun h => h2 (hinj _ _ h)), if_neg h2]
      · rw [if_neg hc, if_neg hc]
    constructor
    · intro t
      show applyNetF (scaleNet σ rest) comp (cswapF comp f (σ p.1) (σ p.2)) (σ t) = _
      rw [(ih (cswapF comp f (σ p.1) (σ p.2))).1 t, hfun]
      rfl
    · intro x hx
      show applyNetF (scaleNet σ rest) comp (cswapF comp f (σ p.1) (σ p.2)) x = f x
      rw [(ih _).2 x hx]
      exact cswapF_frame comp f (hx p.1) (hx p.2)

/-! ## Threshold windows and counting -/

theorem ascWin_clip {g : Nat → Bool} {lo sz a : Nat} (h : AscWin g lo sz a) :
    AscWin g lo sz (min a sz) := by
  intro t ht
  rw [h t ht]
  exact decide_eq_decide.mpr (by omega)

theorem bsortedOn_of_ascWin {g : Nat → Bool} {n a : Nat}
    (h : AscWin g 0 n a) : BSortedOn g n := by
  intro t ht hval
  have h1 := h t (by omega)
  have h2 := h (t + 1) (by omega)
  rw [Nat.zero_add] at h1 h2
  rw [h2]
  rw [h1] at hval
  simp only [decide_eq_true_eq] at hval ⊢
  omega

theorem cntOn_congr {g g' : Nat → Bool} {L : List Nat}
    (h : ∀ t ∈ L, g t = g' t) : cntOn g L = cntOn g' L := by
  unfold cntOn
  rw [List.filter_congr h]

theorem cntOn_append (g : Nat → Bool) (L1 L2 : List Nat) :
    cntOn g (L1 ++ L2) = cntOn g L1 + cntOn g L2 := by
  simp [cntOn, List.filter_append]

theorem cntOn_perm {g : Nat → Bool} {L1 L2 : List Nat} (h : L1.Perm L2) :
    cntOn g L1 = cntOn g L2 :=
  (h.filter _).length_eq

theorem cntOn_cswapF (g : Nat → Bool) (L : List Nat) (hL : L.Nodup)
    {i j : Nat} (hi : i ∈ L) (hj : j ∈ L) (hij : i ≠ j) :
    cntOn (cswapF bblt g i j) L = cntOn g L := by
  have hj' : j ∈ L.erase i := by
    rw [List.mem_erase_of_ne (Ne.symm hij)]
    exact hj
  have hperm : L.Perm (i :: j :: (L.erase i).erase j) :=
    (List.perm_cons_erase hi).trans
      ((List.perm_cons_erase hj').cons i)
  rw [cntOn_perm hperm, cntOn_perm (g := g) hperm]
  have hrest : ∀ t ∈ (L.erase i).erase j, cswapF bblt g i j t = g t := by
    intro t htmem
    have hne : L.Nodup := hL
    have h1 : t ∈ L.erase i := List.mem_of_mem_erase htmem
    have hti : t ≠ i := by
      have := (List.Nodup.mem_erase_iff hL).mp h1
      exact this.1
    have htj : t ≠ j := by
      have hnd : (L.erase i).Nodup := hL.erase i
      have := (List.Nodup.mem_erase_iff hnd).mp htmem
      exact this.1
    exact cswapF_frame bblt g hti htj
  have hcnt2 : cntOn (cswapF bblt g i j) ((L.erase i).erase j) =
      cntOn g ((L.erase i).erase j) := cntOn_congr hrest
  have hLft : cswapF bblt g i j i = (g i && g j) := cswapF_bblt_left g hij
  have hRgt : cswapF bblt g i j j = (g i || g j) := cswapF_bblt_right g hij
  simp only [cntOn, List.filter_cons] at *
  rw [hLft, hRgt]
  cases hgi : g i <;> cases hgj : g j <;>
    simp [hgi, hgj, hcnt2, cntOn] at * <;> omega

theorem cntOn_applyNetF (net : List (Nat × Nat)) (L : List Nat)
    (hL : L.Nodup) (hnet : ∀ p ∈ net, p.1 ∈ L ∧ p.2 ∈ L ∧ p.1 ≠ p.2) :
    ∀ g : Nat → Bool, cntOn (applyNetF net bblt g) L = cntOn g L := by
  induction net with
  | nil => intro g; rfl
  | cons p rest ih =>
    intro g
    rw [applyNetF_cons]
    have hp := hnet p (List.mem_cons_self p rest)
    rw [ih (fun q hq => hnet q (List.mem_cons_of_mem p hq))]
    exact cntOn_cswapF g L hL hp.1 hp.2.1 hp.2.2

theorem winList_nodup (lo sz : Nat) : (winList lo sz).Nodup := by
  refine List.Nodup.map ?_ (List.nodup_range sz)
  intro a b hab
  have h2 : lo + a = lo + b := hab
  omega

theorem mem_winList {t lo sz : Nat} :
    t ∈ winList lo sz ↔ lo ≤ t ∧ t < lo + sz := by
  simp only [winList, List.mem_map, List.mem_range]
  constructor
  · rintro ⟨a, ha, rfl⟩
    show lo ≤ lo + a ∧ lo + a < lo + sz
    omega
  · rintro ⟨h1, h2⟩
    exact ⟨t - lo, by omega, show lo + (t - lo) = t by omega⟩

theorem cntOn_winList_asc {g : Nat → Bool} {lo a : Nat} :
    ∀ {sz : Nat}, AscWin g lo sz a → cntOn g (winList lo sz) = sz - a := by
  intro sz
  induction sz with
  | zero =>
    intro _
    simp [cntOn, winList]
  | succ sz ih =>
    intro h
    have hdec : winList lo (sz + 1) = winList lo sz ++ [lo + sz] := by
      rw [winList, List.range_succ, List.map_append]
      rfl
    rw [hdec, cntOn_append]
    have hlast : cntOn g [lo + sz] = if a ≤ sz then 1 else 0 := by
      have := h sz (by omega)
      simp only [cntOn, List.filter_cons, List.filter_nil, this]
      by_cases hc : a ≤ sz <;> simp [hc]
    rw [hlast, ih fun t ht => h t (by omega)]
    by_cases hc : a ≤ sz <;> simp [hc] <;> omega

/-! ## The 0/1 principle -/

/-- Mapping the buffer through a threshold test commutes with one
compare-exchange, for a strict weak order. -/
theorem cswapF_threshold (comp : α → α → Bool) (hswo : IsSWO comp) (c : α)
    (f : Nat → α) (i j : Nat) :
    (fun t => !comp (cswapF comp f i j t) c) =
      cswapF bblt (fun t => !comp (f t) c) i j := by
  funext t
  have hA : comp (f j) (f i) = true →
      bblt (!comp (f j) c) (!comp (f i) c) = false →
      (!comp (f i) c) = (!comp (f j) c) := by
    intro hba hb
    cases hac : comp (f i) c <;> cases hbc : comp (f j) c
    · rfl
    · exfalso
      rw [hac, hbc] at hb
      simp [bblt] at hb
    · exfalso
      have htr := hswo.2.1 (f j) (f i) c hba hac
      rw [hbc] at htr
      exact Bool.noConfusion htr
    · rfl
  have hB : comp (f j) (f i) = false →
      bblt (!comp (f j) c) (!comp (f i) c) = false := by
    intro hba
    cases hac : comp (f i) c <;> cases hbc : comp (f j) c
    · simp [bblt]
    · exfalso
      have htr := hswo.2.2 (f j) (f i) c hba hac
      rw [hbc] at htr
      exact Bool.noConfusion htr
    · simp [bblt]
    · simp [bblt]
  unfold cswapF
  by_cases hc : comp (f j) (f i) = true
  · rw [if_pos hc]
    by_cases hc2 : bblt (!comp (f j) c) (!comp (f i) c) = true
    · rw [if_pos hc2]
      by_cases h1 : t = i
      · subst h1; rw [if_pos rfl, if_pos rfl]
      rw [if_neg h1, if_neg h1]
      by_cases h2 : t = j
      · subst h2; rw [if_pos rfl, if_pos rfl]
      rw [if_neg h2, if_neg h2]
    · have heq := hA hc (by simpa using hc2)
      rw [if_neg hc2]
      by_cases h1 : t = i
      · subst h1; rw [if_pos rfl]; exact heq.symm
      rw [if_neg h1]
      by_cases h2 : t = j
      · subst h2; rw [if_pos rfl]; exact heq
      rw [if_neg h2]
  · have hc' : comp (f j) (f i) = false := by simpa using hc
    rw [if_neg hc, if_neg (by simp [hB hc'])]

/-- Mapping through a threshold test commutes with replaying a whole
network. -/
theorem applyNetF_threshold (net : List (Nat × Nat)) (comp : α → α → Bool)
    (hswo : IsSWO comp) (c : α) :
    ∀ f : Nat → α,
      (fun t => !comp (applyNetF net comp f t) c) =
        applyNetF net bblt (fun t => !comp (f t) c) := by
  induction net with
  | nil => intro f; rfl
  | cons p rest ih =>
    intro f
    rw [applyNetF_cons, applyNetF_cons, ih (cswapF comp f p.1 p.2),
      cswapF_threshold comp hswo c]

/-- The 0/1 principle: a network that sorts every 0/1 buffer of width `n`
leaves no inversion in any buffer over any strict weak order. -/
theorem zero_one_principle (net : List (Nat × Nat)) (n : Nat)
    (hsorts : SortsBool net n) (comp : α → α → Bool) (hswo : IsSWO comp)
    (f : Nat → α) : ∀ t, t + 1 < n →
      comp (applyNetF net comp f (t + 1)) (applyNetF net comp f t) = false := by
  intro t ht
  by_cases hcon : comp (applyNetF net comp f (t + 1)) (applyNetF net comp f t) = false
  · exact hcon
  exfalso
  have hcon' : comp (applyNetF net comp f (t + 1)) (applyNetF net comp f t) = true := by
    cases h : comp (applyNetF net comp f (t + 1)) (applyNetF net comp f t)
    · exact absurd h hcon
    · rfl
  have hmap := applyNetF_threshold net comp hswo (applyNetF net comp f t) f
  have hbs := hsorts (fun s => !comp (f s) (applyNetF net comp f t)) t ht
  rw [← hmap] at hbs
  have h1 : (!comp (applyNetF net comp f t) (applyNetF net comp f t)) = true := by
    rw [hswo.1]
    rfl
  have h2 : (!comp (applyNetF net comp f (t + 1)) (applyNetF net comp f t)) = true :=
    hbs h1
  rw [hcon'] at h2
  simp at h2

/-! ## Bridging the list executor and the functional executor -/

theorem cswapAt_getD (comp : α → α → Bool) (l : List α) {i j n : Nat}
    (hij : i < j) (hjn : j < n) (hl : l.length = n) (d : α) :
    ∀ t, (cswapAt comp l i j).getD t d =
      cswapF comp (fun s => l.getD s d) i j t := by
  intro t
  have hi : i < l.length := by omega
  have hj : j < l.length := by omega
  unfold cswapAt cswapF
  rw [List.getElem?_eq_getElem hi, List.getElem?_eq_getElem hj]
  simp only [List.getD_eq_getElem?_getD, List.getElem?_eq_getElem hi,
    List.getElem?_eq_getElem hj, Option.getD_some]
  by_cases hc : comp l[j] l[i] = true
  · rw [if_pos hc, if_pos hc]
    by_cases h1 : t = i
    · rw [if_pos h1, h1]
      rw [List.getElem?_set_ne (by omega : j ≠ i), List.getElem?_set_self hi]
      rfl
    rw [if_neg h1]
    by_cases h2 : t = j
    · rw [if_pos h2, h2]
      rw [List.getElem?_set_self (by simpa using hj)]
      rfl
    rw [if_neg h2]
    rw [List.getElem?_set_ne (fun h => h2 h.symm),
      List.getElem?_set_ne (fun h => h1 h.symm)]
  · rw [if_neg hc, if_neg hc]

theorem applyNetwork_getD (net : List (Nat × Nat)) {n : Nat}
    (hnet : ∀ p ∈ net, p.1 < p.2 ∧ p.2 < n) (comp : α → α → Bool) :
    ∀ (l : List α), l.length = n → ∀ (d : α) (t : Nat),
      (applyNetwork net comp l).getD t d =
        applyNetF net comp (fun s => l.getD s d) t := by
  induction net with
  | nil => intro l hl d t; rfl
  | cons p rest ih =>
    intro l hl d t
    rw [applyNetwork_cons, applyNetF_cons]
    have hp := hnet p (List.mem_cons_self p rest)
    have hlen' : (cswapAt comp l p.1 p.2).length = n := by
      rw [(cswapAt_perm comp l p.1 p.2).length_eq]
      exact hl
    rw [ih (fun q hq => hnet q (List.mem_cons_of_mem p hq)) _ hlen' d t]
    have hfun : (fun s => (cswapAt comp l p.1 p.2).getD s d) =
        cswapF comp (fun s => l.getD s d) p.1 p.2 := by
      funext s
      exact cswapAt_getD comp l hp.1 hp.2 hl d s
    rw [hfun]

theorem sortedUnder_of_pointwise (comp : α → α → Bool) (d : α) :
    ∀ l : List α,
      (∀ t, t + 1 < l.length → comp (l.getD (t + 1) d) (l.getD t d) = false) →
      SortedUnder comp l := by
  intro l
  induction l with
  | nil => intro _; rfl
  | cons a tl ih =>
    intro h
    cases tl with
    | nil => rfl
    | cons b rest =>
      show (!comp b a && IsOrdered comp (b :: rest)) = true
      have h0 := h 0 (by simp)
      simp only [List.getD_cons_succ, List.getD_cons_zero] at h0
      rw [h0]
      have htl : IsOrdered comp (b :: rest) = true := by
        refine ih ?_
        intro t ht
        have := h (t + 1) (by simpa using Nat.succ_lt_succ ht)
        simpa using this
      rw [htl]
      rfl

/-! ## Bubble network sorts -/

theorem bubbleNet_succ (n : Nat) :
    bubbleNet (n + 1) = ((List.range n).map fun j => (j, j + 1)) ++ bubbleNet n := by
  unfold bubbleNet
  rw [List.range_succ_eq_map, List.map_cons, List.flatten_cons]
  congr 1
  rw [List.map_map]
  congr 1
  apply List.map_congr_left
  intro i _
  simp only [Function.comp_apply]
  have harith : n + 1 - 1 - (i + 1) = n - 1 - i := by omega
  rw [harith]

theorem bubblePass_bounds (n : Nat) :
    ∀ p ∈ (List.range n).map fun j => (j, j + 1), p.1 < n + 1 ∧ p.2 < n + 1 := by
  intro p hp
  simp only [List.mem_map, List.mem_range] at hp
  obtain ⟨j, hj, rfl⟩ := hp
  dsimp only
  omega

theorem bubblePass_last (n : Nat) (g : Nat → Bool) :
    applyNetF ((List.range n).map fun j => (j, j + 1)) bblt g n =
      (List.range (n + 1)).any g := by
  induction n generalizing g with
  | zero => simp [applyNetF, List.range_succ]
  | succ n ih =>
    have hsplit : (List.range (n + 1)).map (fun j => (j, j + 1)) =
        ((List.range n).map fun j => (j, j + 1)) ++ [(n, n + 1)] := by
      rw [List.range_succ, List.map_append]
      rfl
    rw [hsplit, applyNetF_append, applyNetF_cons, applyNetF_nil]
    rw [cswapF_bblt_right _ (by omega : n ≠ n + 1)]
    have hfr : applyNetF ((List.range n).map fun j => (j, j + 1)) bblt g (n + 1)
        = g (n + 1) :=
      applyNetF_frame _ bblt (fun x => x < n + 1) (bubblePass_bounds n) g
        (n + 1) (by omega)
    have hn := ih g
    rw [hfr, hn]
    have hsucc : (List.range (n + 1 + 1)).any g =
        ((List.range (n + 1)).any g || g (n + 1)) := by
      rw [List.range_succ, List.any_append]
      simp
    rw [hsucc]

theorem bubble_sortsBool : ∀ n, SortsBool (bubbleNet n) n := by
  intro n
  induction n with
  | zero => intro g t ht; omega
  | succ n ih =>
    intro g
    rw [bubbleNet_succ, applyNetF_append]
    set h := applyNetF ((List.range n).map fun j => (j, j + 1)) bblt g with hh
    intro t ht hval
    by_cases htn : t + 1 < n
    · exact ih h t htn hval
    have ht1 : t + 1 = n := by omega
    have hX : ∀ s, s < n + 1 → g s = true → (List.range (n + 1)).any g = true := by
      intro s hs hgs
      rw [List.any_eq_true]
      exact ⟨s, List.mem_range.mpr hs, hgs⟩
    have hh' : ∀ s, s < n + 1 → h s = true → (List.range (n + 1)).any g = true :=
      applyNetF_bool_true_source _ (fun x => x < n + 1) (bubblePass_bounds n) _
        g hX
    have hout : ∀ s, s < n →
        applyNetF (bubbleNet n) bblt h s = true →
          (List.range (n + 1)).any g = true := by
      refine applyNetF_bool_true_source _ (fun x => x < n) ?_ _ h
        (fun s hs => hh' s (by omega))
      intro p hp
      have := mem_bubbleNet hp
      omega
    have hXval := hout t (by omega) hval
    rw [ht1]
    have hfr : applyNetF (bubbleNet n) bblt h n = h n := by
      refine applyNetF_frame _ bblt (fun x => x < n) ?_ h n (by omega)
      intro p hp
      have := mem_bubbleNet hp
      omega
    rw [hfr]
    have hlast : h n = (List.range (n + 1)).any g := bubblePass_last n g
    rw [hlast]
    exact hXval

/-! ## Insertion network sorts -/

theorem bsortedOn_mono (g : Nat → Bool) (n : Nat) (h : BSortedOn g n) :
    ∀ d s, s + d < n → g s = true → g (s + d) = true := by
  intro d
  induction d with
  | zero => intro s _ hs; exact hs
  | succ d ih =>
    intro s hlt hs
    have hd := ih s (by omega) hs
    exact h (s + d) (by omega) hd

theorem insertionNet_succ (n : Nat) :
    insertionNet (n + 1) =
      insertionNet n ++ (List.range n).map fun t => (n - 1 - t, n - t) := by
  unfold insertionNet
  rw [List.range_succ, List.map_append, List.flatten_append]
  simp

theorem walk_succ (i : Nat) :
    (List.range (i + 1)).map (fun t => (i + 1 - 1 - t, i + 1 - t)) =
      (i, i + 1) :: (List.range i).map (fun t => (i - 1 - t, i - t)) := by
  rw [List.range_succ_eq_map, List.map_cons]
  congr 1
  rw [List.map_map]
  apply List.map_congr_left
  intro t _
  simp only [Function.comp_apply]
  have h1 : i + 1 - 1 - (t + 1) = i - 1 - t := by omega
  have h2 : i + 1 - (t + 1) = i - t := by omega
  rw [h1, h2]

theorem walk_bounds (i : Nat) :
    ∀ p ∈ (List.range i).map fun t => (i - 1 - t, i - t),
      p.1 < p.2 ∧ p.2 ≤ i := by
  intro p hp
  simp only [List.mem_map, List.mem_range] at hp
  obtain ⟨t, ht, rfl⟩ := hp
  dsimp only
  omega

theorem insert_walk : ∀ (m : Nat) (g : Nat → Bool), BSortedOn g m →
    BSortedOn (applyNetF ((List.range m).map fun t => (m - 1 - t, m - t))
      bblt g) (m + 1) := by
  intro m
  induction m with
  | zero =>
    intro g _ t ht
    omega
  | succ m ih =>
    intro g hsort
    rw [walk_succ, applyNetF_cons]
    have hsorth : BSortedOn (cswapF bblt g m (m + 1)) m := by
      intro t ht hval
      rw [cswapF_frame bblt g (by omega) (by omega)] at hval
      rw [cswapF_frame bblt g (by omega) (by omega)]
      exact hsort t (by omega) hval
    have hmain := ih (cswapF bblt g m (m + 1)) hsorth
    intro t ht hval
    by_cases htm : t + 1 < m + 1
    · exact hmain t htm hval
    have ht1 : t + 1 = m + 1 := by omega
    have hX : (g m || g (m + 1)) = true := by
      have hblame : ∀ s, s ≤ m →
          cswapF bblt g m (m + 1) s = true →
          (g m || g (m + 1)) = true := by
        intro s hs hval'
        by_cases hsm : s = m
        · subst hsm
          rw [cswapF_bblt_left g (by omega)] at hval'
          rw [Bool.and_eq_true] at hval'
          rw [hval'.1]
          rfl
        · rw [cswapF_frame bblt g (by omega) (by omega)] at hval'
          have hgm : g m = true := by
            have hmono := bsortedOn_mono g (m + 1) hsort (m - s) s (by omega) hval'
            have harith : s + (m - s) = m := by omega
            rw [harith] at hmono
            exact hmono
          rw [hgm]
          rfl
      have hsrc := applyNetF_bool_true_source
        ((List.range m).map fun t => (m - 1 - t, m - t))
        (fun x => x ≤ m) ?_ ((g m || g (m + 1)) = true)
        (cswapF bblt g m (m + 1)) hblame
      · exact hsrc t (by omega) hval
      · intro p hp
        have := walk_bounds m p hp
        omega
    rw [ht1]
    have hfr : applyNetF ((List.range m).map fun t => (m - 1 - t, m - t)) bblt
        (cswapF bblt g m (m + 1)) (m + 1) =
        cswapF bblt g m (m + 1) (m + 1) := by
      refine applyNetF_frame _ bblt (fun x => x ≤ m) ?_ _ _ (by omega)
      intro p hp
      have := walk_bounds m p hp
      omega
    rw [hfr, cswapF_bblt_right g (by omega)]
    exact hX

theorem insertion_sortsBool : ∀ n, SortsBool (insertionNet n) n := by
  intro n
  induction n with
  | zero => intro g t ht; omega
  | succ n ih =>
    intro g
    rw [insertionNet_succ, applyNetF_append]
    exact insert_walk n (applyNetF (insertionNet n) bblt g) (ih g)

/-! ## Bitonic network sorts -/

theorem bool_if_min : ∀ a b : Bool, (if bblt b a then b else a) = (a && b) := by
  decide

theorem bool_if_max : ∀ a b : Bool, (if bblt b a then a else b) = (a || b) := by
  decide

theorem cleanStage_vals (lo k : Nat) (g : Nat → Bool) :
    (∀ t, t < 2 ^ k →
      applyNetF ((List.range (2 ^ k)).map fun t => (lo + t, lo + t + 2 ^ k))
        bblt g (lo + t) = (g (lo + t) && g (lo + t + 2 ^ k))) ∧
    (∀ t, t < 2 ^ k →
      applyNetF ((List.range (2 ^ k)).map fun t => (lo + t, lo + t + 2 ^ k))
        bblt g (lo + t + 2 ^ k) = (g (lo + t) || g (lo + t + 2 ^ k))) := by
  have hst := applyNetF_stage bblt (2 ^ k) (fun t => lo + t)
    (fun t => lo + t + 2 ^ k)
    (fun s t hs ht => by dsimp only; omega)
    (fun s t hs ht h => by dsimp only at h; omega)
    (fun s t hs ht h => by dsimp only at h; omega) g
  constructor
  · intro t ht
    have h := hst.1 t ht
    rw [h, bool_if_min]
  · intro t ht
    have h := hst.2.1 t ht
    rw [h, bool_if_max]

theorem flipStage_vals (lo k : Nat) (g : Nat → Bool) :
    (∀ t, t < 2 ^ k →
      applyNetF (bitonicFlipK lo k) bblt g (lo + t) =
        (g (lo + t) && g (lo + (2 ^ (k + 1) - 1 - t)))) ∧
    (∀ s, s < 2 ^ k →
      applyNetF (bitonicFlipK lo k) bblt g (lo + 2 ^ k + s) =
        (g (lo + (2 ^ k - 1 - s)) || g (lo + 2 ^ k + s))) := by
  have hpow : 2 ^ (k + 1) = 2 ^ k + 2 ^ k := by ring
  have hk : (0 : Nat) < 2 ^ k := Nat.pos_pow_of_pos _ (by omega)
  have hst := applyNetF_stage bblt (2 ^ k) (fun t => lo + t)
    (fun t => lo + (2 ^ (k + 1) - 1 - t))
    (fun s t hs ht => by dsimp only; omega)
    (fun s t hs ht h => by dsimp only at h; omega)
    (fun s t hs ht h => by dsimp only at h; omega) g
  constructor
  · intro t ht
    have h := hst.1 t ht
    rw [bitonicFlipK, h, bool_if_min]
  · intro s hs
    have hteq : lo + 2 ^ k + s = lo + (2 ^ (k + 1) - 1 - (2 ^ k - 1 - s)) := by
      omega
    have h := hst.2.1 (2 ^ k - 1 - s) (by omega)
    rw [bitonicFlipK, hteq, h, bool_if_max]

/-- The half-cleaner stage on a bitonic window leaves two bitonic halves;
if the lower half keeps any one, the upper half is all ones. -/
theorem cleanStage_bitonic (lo k : Nat) (g : Nat → Bool)
    (hbit : BitonicWin g lo (2 ^ (k + 1))) :
    BitonicWin (applyNetF ((List.range (2 ^ k)).map
        fun t => (lo + t, lo + t + 2 ^ k)) bblt g) lo (2 ^ k) ∧
    BitonicWin (applyNetF ((List.range (2 ^ k)).map
        fun t => (lo + t, lo + t + 2 ^ k)) bblt g) (lo + 2 ^ k) (2 ^ k) ∧
    ((∃ t0, t0 < 2 ^ k ∧ applyNetF ((List.range (2 ^ k)).map
        fun t => (lo + t, lo + t + 2 ^ k)) bblt g (lo + t0) = true) →
      ∀ s, s < 2 ^ k → applyNetF ((List.range (2 ^ k)).map
        fun t => (lo + t, lo + t + 2 ^ k)) bblt g (lo + 2 ^ k + s) = true) := by
  have hpow : 2 ^ (k + 1) = 2 ^ k + 2 ^ k := by ring
  have hm : (0 : Nat) < 2 ^ k := Nat.pos_pow_of_pos _ (by omega)
  have hvals := cleanStage_vals lo k g
  have hidx : ∀ s : Nat, lo + 2 ^ k + s = lo + s + 2 ^ k := fun s => by omega
  rcases hbit with ⟨a, b, hL⟩ | ⟨a, b, hH⟩
  · have hg1 : ∀ t, t < 2 ^ k → g (lo + t) = decide (a ≤ t ∧ t < b) :=
      fun t ht => hL t (by omega)
    have hg2 : ∀ t, t < 2 ^ k →
        g (lo + t + 2 ^ k) = decide (a ≤ t + 2 ^ k ∧ t + 2 ^ k < b) := by
      intro t ht
      have h := hL (t + 2 ^ k) (by omega)
      rw [← Nat.add_assoc] at h
      exact h
    refine ⟨Or.inl ⟨a, b - 2 ^ k, ?_⟩, ?_, ?_⟩
    · intro t ht
      rw [hvals.1 t ht, hg1 t ht, hg2 t ht, ← Bool.decide_and]
      exact decide_eq_decide.mpr (by omega)
    · by_cases hbm : b ≤ 2 ^ k
      · refine Or.inl ⟨a, b, ?_⟩
        intro s hs
        rw [hidx s, hvals.2 s hs, hg1 s hs, hg2 s hs, ← Bool.decide_or]
        exact decide_eq_decide.mpr (by omega)
      · by_cases ham : 2 ^ k ≤ a
        · refine Or.inl ⟨a - 2 ^ k, b - 2 ^ k, ?_⟩
          intro s hs
          rw [hidx s, hvals.2 s hs, hg1 s hs, hg2 s hs, ← Bool.decide_or]
          exact decide_eq_decide.mpr (by omega)
        · refine Or.inr ⟨b - 2 ^ k, a, ?_⟩
          intro s hs
          rw [hidx s, hvals.2 s hs, hg1 s hs, hg2 s hs, ← Bool.decide_or]
          exact decide_eq_decide.mpr (by omega)
    · rintro ⟨t0, ht0, hval⟩ s hs
      rw [hvals.1 t0 ht0, hg1 t0 ht0, hg2 t0 ht0, Bool.and_eq_true,
        decide_eq_true_eq, decide_eq_true_eq] at hval
      rw [hidx s, hvals.2 s hs, hg1 s hs, hg2 s hs, Bool.or_eq_true,
        decide_eq_true_eq, decide_eq_true_eq]
      omega
  · have hg1 : ∀ t, t < 2 ^ k → g (lo + t) = decide (t < a ∨ b ≤ t) :=
      fun t ht => hH t (by omega)
    have hg2 : ∀ t, t < 2 ^ k →
        g (lo + t + 2 ^ k) = decide (t + 2 ^ k < a ∨ b ≤ t + 2 ^ k) := by
      intro t ht
      have h := hH (t + 2 ^ k) (by omega)
      rw [← Nat.add_assoc] at h
      exact h
    by_cases hba : b ≤ a
    · refine ⟨Or.inl ⟨0, 2 ^ k, ?_⟩, Or.inl ⟨0, 2 ^ k, ?_⟩, ?_⟩
      · intro t ht
        rw [hvals.1 t ht, hg1 t ht, hg2 t ht, ← Bool.decide_and]
        exact decide_eq_decide.mpr (by omega)
      · intro s hs
        rw [hidx s, hvals.2 s hs, hg1 s hs, hg2 s hs, ← Bool.decide_or]
        exact decide_eq_decide.mpr (by omega)
      · rintro _ s hs
        rw [hidx s, hvals.2 s hs, hg1 s hs, hg2 s hs, Bool.or_eq_true,
          decide_eq_true_eq, decide_eq_true_eq]
        omega
    · by_cases hbm : b ≤ 2 ^ k
      · refine ⟨Or.inr ⟨a, b, ?_⟩, Or.inl ⟨0, 2 ^ k, ?_⟩, ?_⟩
        · intro t ht
          rw [hvals.1 t ht, hg1 t ht, hg2 t ht, ← Bool.decide_and]
          exact decide_eq_decide.mpr (by omega)
        · intro s hs
          rw [hidx s, hvals.2 s hs, hg1 s hs, hg2 s hs, ← Bool.decide_or]
          exact decide_eq_decide.mpr (by omega)
        · rintro _ s hs
          rw [hidx s, hvals.2 s hs, hg1 s hs, hg2 s hs, Bool.or_eq_true,
            decide_eq_true_eq, decide_eq_true_eq]
          omega
      · by_cases ham : 2 ^ k < a
        · refine ⟨Or.inr ⟨a - 2 ^ k, b - 2 ^ k, ?_⟩, Or.inl ⟨0, 2 ^ k, ?_⟩, ?_⟩
          · intro t ht
            rw [hvals.1 t ht, hg1 t ht, hg2 t ht, ← Bool.decide_and]
            exact decide_eq_decide.mpr (by omega)
          · intro s hs
            rw [hidx s, hvals.2 s hs, hg1 s hs, hg2 s hs, ← Bool.decide_or]
            exact decide_eq_decide.mpr (by omega)
          · rintro _ s hs
            rw [hidx s, hvals.2 s hs, hg1 s hs, hg2 s hs, Bool.or_eq_true,
              decide_eq_true_eq, decide_eq_true_eq]
            omega
        · refine ⟨Or.inl ⟨b - 2 ^ k, a, ?_⟩, Or.inr ⟨a, b - 2 ^ k, ?_⟩, ?_⟩
          · intro t ht
            rw [hvals.1 t ht, hg1 t ht, hg2 t ht, ← Bool.decide_and]
            exact decide_eq_decide.mpr (by omega)
          · intro s hs
            rw [hidx s, hvals.2 s hs, hg1 s hs, hg2 s hs, ← Bool.decide_or]
            exact decide_eq_decide.mpr (by omega)
          · rintro ⟨t0, ht0, hval⟩ s hs
            rw [hvals.1 t0 ht0, hg1 t0 ht0, hg2 t0 ht0, Bool.and_eq_true,
              decide_eq_true_eq, decide_eq_true_eq] at hval
            rw [hidx s, hvals.2 s hs, hg1 s hs, hg2 s hs, Bool.or_eq_true,
              decide_eq_true_eq, decide_eq_true_eq]
            omega

/-- The flip stage on two sorted halves leaves a single-block lower half
and an ends-block upper half; if the lower half keeps any one, the upper
half is all ones. -/
theorem flipStage_bitonic (lo k : Nat) (g : Nat → Bool) (a1 a2 : Nat)
    (hA : AscWin g lo (2 ^ k) a1) (hB : AscWin g (lo + 2 ^ k) (2 ^ k) a2) :
    LowWin (applyNetF (bitonicFlipK lo k) bblt g) lo (2 ^ k) a1 (2 ^ k - a2) ∧
    HighWin (applyNetF (bitonicFlipK lo k) bblt g) (lo + 2 ^ k) (2 ^ k)
      (2 ^ k - a1) a2 ∧
    ((∃ t0, t0 < 2 ^ k ∧
        applyNetF (bitonicFlipK lo k) bblt g (lo + t0) = true) →
      ∀ s, s < 2 ^ k →
        applyNetF (bitonicFlipK lo k) bblt g (lo + 2 ^ k + s) = true) := by
  have hpow : 2 ^ (k + 1) = 2 ^ k + 2 ^ k := by ring
  have hm : (0 : Nat) < 2 ^ k := Nat.pos_pow_of_pos _ (by omega)
  have hvals := flipStage_vals lo k g
  have hg2 : ∀ t, t < 2 ^ k →
      g (lo + (2 ^ (k + 1) - 1 - t)) = decide (a2 ≤ 2 ^ k - 1 - t) := by
    intro t ht
    have heq : lo + (2 ^ (k + 1) - 1 - t) = lo + 2 ^ k + (2 ^ k - 1 - t) := by
      omega
    rw [heq]
    exact hB (2 ^ k - 1 - t) (by omega)
  have hup : ∀ s, s < 2 ^ k →
      applyNetF (bitonicFlipK lo k) bblt g (lo + 2 ^ k + s) =
        decide (s < 2 ^ k - a1 ∨ a2 ≤ s) := by
    intro s hs
    rw [hvals.2 s hs, hA (2 ^ k - 1 - s) (by omega), hB s hs, ← Bool.decide_or]
    exact decide_eq_decide.mpr (by omega)
  have hlow : ∀ t, t < 2 ^ k →
      applyNetF (bitonicFlipK lo k) bblt g (lo + t) =
        decide (a1 ≤ t ∧ t < 2 ^ k - a2) := by
    intro t ht
    rw [hvals.1 t ht, hA t ht, hg2 t ht, ← Bool.decide_and]
    exact decide_eq_decide.mpr (by omega)
  refine ⟨hlow, hup, ?_⟩
  rintro ⟨t0, ht0, hval⟩ s hs
  rw [hlow t0 ht0, decide_eq_true_eq] at hval
  rw [hup s hs, decide_eq_true_eq]
  omega

theorem ascWin_of_eqOn {g g' : Nat → Bool} {lo sz a : Nat}
    (he : ∀ t, t < sz → g' (lo + t) = g (lo + t)) (h : AscWin g lo sz a) :
    AscWin g' lo sz a := fun t ht => (he t ht).trans (h t ht)

theorem bitonicWin_of_eqOn {g g' : Nat → Bool} {lo sz : Nat}
    (he : ∀ t, t < sz → g' (lo + t) = g (lo + t)) (h : BitonicWin g lo sz) :
    BitonicWin g' lo sz := by
  rcases h with ⟨a, b, hf⟩ | ⟨a, b, hf⟩
  · exact Or.inl ⟨a, b, fun t ht => (he t ht).trans (hf t ht)⟩
  · exact Or.inr ⟨a, b, fun t ht => (he t ht).trans (hf t ht)⟩

theorem bitonicCleanK_pairsP (lo k : Nat) :
    ∀ p ∈ bitonicCleanK lo k,
      (lo ≤ p.1 ∧ p.1 < lo + 2 ^ k) ∧ (lo ≤ p.2 ∧ p.2 < lo + 2 ^ k) := by
  intro p hp
  have h := bitonicCleanK_bounds k lo p hp
  exact ⟨⟨h.1, by omega⟩, ⟨by omega, h.2.2⟩⟩

/-- Cleaning both bitonic halves of a window whose lower-to-upper
staircase holds yields a sorted window. -/
theorem cleanPair_sorts (k : Nat)
    (IH : ∀ lo g, BitonicWin g lo (2 ^ k) →
      ∃ A, AscWin (applyNetF (bitonicCleanK lo k) bblt g) lo (2 ^ k) A)
    (lo : Nat) (h1 : Nat → Bool)
    (hlowB : BitonicWin h1 lo (2 ^ k))
    (hupB : BitonicWin h1 (lo + 2 ^ k) (2 ^ k))
    (hstair : (∃ t0, t0 < 2 ^ k ∧ h1 (lo + t0) = true) →
      ∀ s, s < 2 ^ k → h1 (lo + 2 ^ k + s) = true) :
    ∃ A, A ≤ 2 ^ (k + 1) ∧ AscWin (applyNetF
      (bitonicCleanK lo k ++ bitonicCleanK (lo + 2 ^ k) k) bblt h1)
      lo (2 ^ (k + 1)) A := by
  have hpow : 2 ^ (k + 1) = 2 ^ k + 2 ^ k := by ring
  have hm : (0 : Nat) < 2 ^ k := Nat.pos_pow_of_pos _ (by omega)
  rw [applyNetF_append]
  obtain ⟨AL, hAL⟩ := IH lo h1 hlowB
  have hAL' := ascWin_clip hAL
  -- the upper half is untouched by the first cleaner
  have hfr1 : ∀ s, s < 2 ^ k →
      applyNetF (bitonicCleanK lo k) bblt h1 (lo + 2 ^ k + s) =
        h1 (lo + 2 ^ k + s) := by
    intro s hs
    exact applyNetF_frame _ bblt (fun x => lo ≤ x ∧ x < lo + 2 ^ k)
      (bitonicCleanK_pairsP lo k) h1 _ (by omega)
  have hup2 : BitonicWin (applyNetF (bitonicCleanK lo k) bblt h1)
      (lo + 2 ^ k) (2 ^ k) :=
    bitonicWin_of_eqOn (fun t ht => hfr1 t ht) hupB
  obtain ⟨AU, hAU⟩ := IH (lo + 2 ^ k) _ hup2
  have hAU' := ascWin_clip hAU
  -- the lower half is untouched by the second cleaner
  have hfr2 : ∀ t, t < 2 ^ k →
      applyNetF (bitonicCleanK (lo + 2 ^ k) k) bblt
        (applyNetF (bitonicCleanK lo k) bblt h1) (lo + t) =
        applyNetF (bitonicCleanK lo k) bblt h1 (lo + t) := by
    intro t ht
    exact applyNetF_frame _ bblt
      (fun x => lo + 2 ^ k ≤ x ∧ x < lo + 2 ^ k + 2 ^ k)
      (bitonicCleanK_pairsP (lo + 2 ^ k) k) _ _ (by omega)
  have hlow3 : AscWin (applyNetF (bitonicCleanK (lo + 2 ^ k) k) bblt
      (applyNetF (bitonicCleanK lo k) bblt h1)) lo (2 ^ k) (min AL (2 ^ k)) :=
    ascWin_of_eqOn (fun t ht => hfr2 t ht) hAL'
  -- final staircase
  have hst3 : min AL (2 ^ k) < 2 ^ k → ∀ s, s < 2 ^ k →
      applyNetF (bitonicCleanK (lo + 2 ^ k) k) bblt
        (applyNetF (bitonicCleanK lo k) bblt h1) (lo + 2 ^ k + s) = true := by
    intro hALlt s hs
    by_cases hone : ∃ t0, t0 < 2 ^ k ∧ h1 (lo + t0) = true
    · have hupAll := hstair hone
      have hup2All : ∀ x, (lo + 2 ^ k ≤ x ∧ x < lo + 2 ^ k + 2 ^ k) →
          applyNetF (bitonicCleanK lo k) bblt h1 x = true := by
        intro x hx
        have hxe : x = lo + 2 ^ k + (x - (lo + 2 ^ k)) := by omega
        rw [hxe, hfr1 _ (by omega)]
        exact hupAll _ (by omega)
      have h3All := applyNetF_bool_const (bitonicCleanK (lo + 2 ^ k) k)
        (fun x => lo + 2 ^ k ≤ x ∧ x < lo + 2 ^ k + 2 ^ k)
        (bitonicCleanK_pairsP (lo + 2 ^ k) k) true _ hup2All
      exact h3All (lo + 2 ^ k + s) (by omega)
    · exfalso
      have hfalse : ∀ x, (lo ≤ x ∧ x < lo + 2 ^ k) → h1 x = false := by
        intro x hx
        cases hval : h1 x
        · rfl
        · exfalso
          exact hone ⟨x - lo, by omega, by
            have hxe : lo + (x - lo) = x := by omega
            rw [hxe]
            exact hval⟩
      have h2false := applyNetF_bool_const (bitonicCleanK lo k)
        (fun x => lo ≤ x ∧ x < lo + 2 ^ k)
        (bitonicCleanK_pairsP lo k) false h1 hfalse
      have hc1 := hlow3 (min AL (2 ^ k)) hALlt
      rw [hfr2 _ hALlt, h2false _ (by omega)] at hc1
      simp at hc1
  -- assemble the single threshold
  refine ⟨if min AL (2 ^ k) < 2 ^ k then min AL (2 ^ k)
    else 2 ^ k + min AU (2 ^ k), by split <;> omega, ?_⟩
  intro t ht
  by_cases htk : t < 2 ^ k
  · rw [hlow3 t htk]
    by_cases hcase : min AL (2 ^ k) < 2 ^ k
    · rw [if_pos hcase]
    · rw [if_neg hcase]
      exact decide_eq_decide.mpr (by omega)
  · have hts : t = 2 ^ k + (t - 2 ^ k) := by omega
    have hidx : lo + t = lo + 2 ^ k + (t - 2 ^ k) := by omega
    by_cases hcase : min AL (2 ^ k) < 2 ^ k
    · rw [if_pos hcase, hidx, hst3 hcase (t - 2 ^ k) (by omega)]
      exact (decide_eq_true (by omega)).symm
    · rw [if_neg hcase, hidx]
      have := hAU' (t - 2 ^ k) (by omega)
      rw [this]
      exact decide_eq_decide.mpr (by omega)

theorem bitonicCleanK_sorts : ∀ (k lo : Nat) (g : Nat → Bool),
    BitonicWin g lo (2 ^ k) →
    ∃ A, AscWin (applyNetF (bitonicCleanK lo k) bblt g) lo (2 ^ k) A := by
  intro k
  induction k with
  | zero =>
    intro lo g _
    refine ⟨if g lo then 0 else 1, ?_⟩
    intro t ht
    have ht0 : t = 0 := by omega
    subst ht0
    show applyNetF (bitonicCleanK lo 0) bblt g (lo + 0) = _
    cases hg : g lo <;> simp [bitonicCleanK, applyNetF, hg]
  | succ k ih =>
    intro lo g hbit
    simp only [bitonicCleanK, List.append_assoc]
    rw [applyNetF_append]
    have hstage := cleanStage_bitonic lo k g hbit
    obtain ⟨A, _, hAsc⟩ := cleanPair_sorts k (ih) lo _ hstage.1 hstage.2.1
      hstage.2.2
    exact ⟨A, hAsc⟩

theorem bitonicK_pairsP (lo k : Nat) :
    ∀ p ∈ bitonicK lo k,
      (lo ≤ p.1 ∧ p.1 < lo + 2 ^ k) ∧ (lo ≤ p.2 ∧ p.2 < lo + 2 ^ k) := by
  intro p hp
  have h := bitonicK_bounds k lo p hp
  exact ⟨⟨h.1, by omega⟩, ⟨by omega, h.2.2⟩⟩

theorem bitonicK_sorts : ∀ (k lo : Nat) (g : Nat → Bool),
    ∃ A, AscWin (applyNetF (bitonicK lo k) bblt g) lo (2 ^ k) A := by
  intro k
  induction k with
  | zero =>
    intro lo g
    refine ⟨if g lo then 0 else 1, ?_⟩
    intro t ht
    have ht0 : t = 0 := by omega
    subst ht0
    show applyNetF (bitonicK lo 0) bblt g (lo + 0) = _
    cases hg : g lo <;> simp [bitonicK, applyNetF, hg]
  | succ k ih =>
    intro lo g
    have hpow : 2 ^ (k + 1) = 2 ^ k + 2 ^ k := by ring
    simp only [bitonicK, List.append_assoc]
    rw [applyNetF_append, applyNetF_append, applyNetF_append]
    obtain ⟨a1, ha1⟩ := ih lo g
    obtain ⟨a2, ha2⟩ := ih (lo + 2 ^ k) (applyNetF (bitonicK lo k) bblt g)
    have ha1' : AscWin (applyNetF (bitonicK (lo + 2 ^ k) k) bblt
        (applyNetF (bitonicK lo k) bblt g)) lo (2 ^ k) a1 := by
      refine ascWin_of_eqOn (fun t ht => ?_) ha1
      exact applyNetF_frame _ bblt
        (fun x => lo + 2 ^ k ≤ x ∧ x < lo + 2 ^ k + 2 ^ k)
        (bitonicK_pairsP (lo + 2 ^ k) k) _ _ (by omega)
    have hflip := flipStage_bitonic lo k _ a1 a2 ha1' ha2
    obtain ⟨A, _, hAsc⟩ := cleanPair_sorts k (bitonicCleanK_sorts k) lo _
      (Or.inl ⟨a1, 2 ^ k - a2, hflip.1⟩)
      (Or.inr ⟨2 ^ k - a1, a2, hflip.2.1⟩) hflip.2.2
    exact ⟨A, hAsc⟩

/-- Pairs reaching above the effective width are no-ops when the lines
above it are all ones, so the filtered network agrees with the full
network there. -/
theorem filter_pad (n : Nat) : ∀ (net : List (Nat × Nat)),
    (∀ p ∈ net, p.1 < p.2) →
    ∀ g : Nat → Bool, (∀ x, n ≤ x → g x = true) →
      applyNetF (net.filter fun p => decide (p.2 < n)) bblt g =
        applyNetF net bblt g := by
  intro net
  induction net with
  | nil => intro _ g _; rfl
  | cons p rest ih =>
    intro hb g hg
    have hbrest : ∀ q ∈ rest, q.1 < q.2 := fun q hq =>
      hb q (List.mem_cons_of_mem p hq)
    by_cases hc : p.2 < n
    · rw [List.filter_cons_of_pos (by simpa using hc), applyNetF_cons,
        applyNetF_cons]
      refine ih hbrest (cswapF bblt g p.1 p.2) ?_
      intro x hx
      have hp := hb p (List.mem_cons_self p rest)
      rw [cswapF_frame bblt g (by omega) (by omega)]
      exact hg x hx
    · rw [List.filter_cons_of_neg (by simpa using hc), applyNetF_cons]
      have hnoop : cswapF bblt g p.1 p.2 = g := by
        funext t
        unfold cswapF
        rw [hg p.2 (by omega)]
        simp [bblt]
      rw [hnoop]
      exact ih hbrest g hg

theorem bitonic_sortsBool (n : Nat) : SortsBool (bitonicNet n) n := by
  intro g
  have hK := le_two_pow_clog2 n
  have hcong := applyNetF_congrOn (bitonicNet n) bblt (fun x => x < n)
    (fun p hp => by
      have := mem_bitonicNet hp
      exact ⟨by omega, this.2⟩)
    g (fun x => if x < n then g x else true)
    (fun t ht => by
      show g t = if t < n then g t else true
      rw [if_pos ht])
  have hfull : applyNetF (bitonicNet n) bblt
      (fun x => if x < n then g x else true) =
      applyNetF (bitonicK 0 (clog2 n)) bblt
        (fun x => if x < n then g x else true) := by
    refine filter_pad n (bitonicK 0 (clog2 n))
      (fun p hp => (bitonicK_bounds (clog2 n) 0 p hp).2.1) _ ?_
    intro x hx
    rw [if_neg (by omega)]
  obtain ⟨A, hA⟩ := bitonicK_sorts (clog2 n) 0
    (fun x => if x < n then g x else true)
  intro t ht hval
  have hv1 : applyNetF (bitonicK 0 (clog2 n)) bblt
      (fun x => if x < n then g x else true) t = true := by
    rw [← congrFun hfull t, ← hcong t (by omega)]
    exact hval
  have hv1' : decide (A ≤ t) = true := by
    have := hA t (by omega)
    rw [Nat.zero_add] at this
    rw [← this]
    exact hv1
  have hv2 : applyNetF (bitonicNet n) bblt g (t + 1) =
      applyNetF (bitonicK 0 (clog2 n)) bblt
        (fun x => if x < n then g x else true) (t + 1) := by
    rw [hcong (t + 1) (by omega), congrFun hfull (t + 1)]
  rw [hv2]
  have := hA (t + 1) (by omega)
  rw [Nat.zero_add] at this
  rw [this]
  rw [decide_eq_true_eq] at hv1' ⊢
  omega

/-! ## Batcher odd-even merge sorts -/

theorem oemNet_sorts : ∀ (k : Nat) (g : Nat → Bool) (a1 a2 : Nat),
    a1 ≤ 2 ^ k → a2 ≤ 2 ^ k →
    AscWin g 0 (2 ^ k) a1 → AscWin g (2 ^ k) (2 ^ k) a2 →
    AscWin (applyNetF (oemNet k) bblt g) 0 (2 ^ (k + 1)) (a1 + a2) := by
  intro k
  induction k with
  | zero =>
    intro g a1 a2 ha1 ha2 hA hB
    have hg0 : g 0 = decide (a1 ≤ 0) := by
      have := hA 0 (by omega)
      simpa using this
    have hg1 : g 1 = decide (a2 ≤ 0) := by
      have := hB 0 (by omega)
      simpa using this
    have hvals := cleanStage_vals 0 0 g
    intro t ht
    have h2 : (2 : Nat) ^ 1 = 2 := by norm_num
    rw [h2] at ht
    show applyNetF (oemNet 0) bblt g (0 + t) = decide (a1 + a2 ≤ t)
    have hnet : oemNet 0 = [(0, 1)] := rfl
    rw [hnet, applyNetF_cons, applyNetF_nil, Nat.zero_add]
    have h01 : t = 0 ∨ t = 1 := by omega
    rcases h01 with rfl | rfl
    · rw [cswapF_bblt_left g (by omega), hg0, hg1, ← Bool.decide_and]
      exact decide_eq_decide.mpr (by omega)
    · rw [cswapF_bblt_right g (by omega), hg0, hg1, ← Bool.decide_or]
      exact decide_eq_decide.mpr (by omega)
  | succ k ih =>
    intro g a1 a2 ha1 ha2 hA hB
    have hpow : 2 ^ (k + 1) = 2 ^ k + 2 ^ k := by ring
    have hpow2 : 2 ^ (k + 2) = 2 ^ (k + 1) + 2 ^ (k + 1) := by ring
    have hm : (0 : Nat) < 2 ^ k := Nat.pos_pow_of_pos _ (by omega)
    simp only [oemNet, List.append_assoc]
    rw [applyNetF_append, applyNetF_append]
    -- the merge of the even-indexed subsequence
    have hsc1 := applyNetF_scale (fun t => 2 * t)
      (fun a b h => by
        have h2 : 2 * a = 2 * b := h
        omega)
      (oemNet k) bblt g
    have heAsc1 : AscWin (fun s => g (2 * s)) 0 (2 ^ k) ((a1 + 1) / 2) := by
      intro s hs
      show g (2 * (0 + s)) = decide ((a1 + 1) / 2 ≤ s)
      rw [Nat.zero_add]
      have h := hA (2 * s) (by omega)
      rw [Nat.zero_add] at h
      rw [h]
      exact decide_eq_decide.mpr (by omega)
    have heAsc2 : AscWin (fun s => g (2 * s)) (2 ^ k) (2 ^ k) ((a2 + 1) / 2) := by
      intro s hs
      show g (2 * (2 ^ k + s)) = decide ((a2 + 1) / 2 ≤ s)
      have hidx : 2 * (2 ^ k + s) = 2 ^ (k + 1) + 2 * s := by omega
      rw [hidx]
      have h := hB (2 * s) (by omega)
      rw [h]
      exact decide_eq_decide.mpr (by omega)
    have hE := ih (fun s => g (2 * s)) ((a1 + 1) / 2) ((a2 + 1) / 2)
      (by omega) (by omega) heAsc1 heAsc2
    -- after the first merge: evens sorted with threshold E, odds untouched
    have hg1even : ∀ t, t < 2 ^ (k + 1) →
        applyNetF (scaleNet (fun t => 2 * t) (oemNet k)) bblt g (2 * t) =
          decide ((a1 + 1) / 2 + (a2 + 1) / 2 ≤ t) := by
      intro t ht
      rw [hsc1.1 t]
      have := hE t (by omega)
      rw [Nat.zero_add] at this
      exact this
    have hg1odd : ∀ x, x % 2 = 1 →
        applyNetF (scaleNet (fun t => 2 * t) (oemNet k)) bblt g x = g x := by
      intro x hx
      exact hsc1.2 x (fun t => by show x ≠ 2 * t; omega)
    -- the merge of the odd-indexed subsequence
    have hsc2 := applyNetF_scale (fun t => 2 * t + 1)
      (fun a b h => by
        have h2 : 2 * a + 1 = 2 * b + 1 := h
        omega)
      (oemNet k) bblt (applyNetF (scaleNet (fun t => 2 * t) (oemNet k)) bblt g)
    have hoAsc1 : AscWin (fun s => applyNetF (scaleNet (fun t => 2 * t)
        (oemNet k)) bblt g (2 * s + 1)) 0 (2 ^ k) (a1 / 2) := by
      intro s hs
      show applyNetF (scaleNet (fun t => 2 * t) (oemNet k)) bblt g
        (2 * (0 + s) + 1) = decide (a1 / 2 ≤ s)
      rw [Nat.zero_add, hg1odd (2 * s + 1) (by omega)]
      have h := hA (2 * s + 1) (by omega)
      rw [Nat.zero_add] at h
      rw [h]
      exact decide_eq_decide.mpr (by omega)
    have hoAsc2 : AscWin (fun s => applyNetF (scaleNet (fun t => 2 * t)
        (oemNet k)) bblt g (2 * s + 1)) (2 ^ k) (2 ^ k) (a2 / 2) := by
      intro s hs
      show applyNetF (scaleNet (fun t => 2 * t) (oemNet k)) bblt g
        (2 * (2 ^ k + s) + 1) = decide (a2 / 2 ≤ s)
      rw [hg1odd (2 * (2 ^ k + s) + 1) (by omega)]
      have hidx : 2 * (2 ^ k + s) + 1 = 2 ^ (k + 1) + (2 * s + 1) := by omega
      rw [hidx]
      have h := hB (2 * s + 1) (by omega)
      rw [h]
      exact decide_eq_decide.mpr (by omega)
    have hO := ih _ (a1 / 2) (a2 / 2) (by omega) (by omega) hoAsc1 hoAsc2
    -- after both merges
    have hg2odd : ∀ t, t < 2 ^ (k + 1) →
        applyNetF (scaleNet (fun t => 2 * t + 1) (oemNet k)) bblt
          (applyNetF (scaleNet (fun t => 2 * t) (oemNet k)) bblt g)
          (2 * t + 1) = decide (a1 / 2 + a2 / 2 ≤ t) := by
      intro t ht
      rw [hsc2.1 t]
      have := hO t (by omega)
      rw [Nat.zero_add] at this
      exact this
    have hg2even : ∀ t, t < 2 ^ (k + 1) →
        applyNetF (scaleNet (fun t => 2 * t + 1) (oemNet k)) bblt
          (applyNetF (scaleNet (fun t => 2 * t) (oemNet k)) bblt g)
          (2 * t) = decide ((a1 + 1) / 2 + (a2 + 1) / 2 ≤ t) := by
      intro t ht
      rw [hsc2.2 (2 * t) (fun s => by show 2 * t ≠ 2 * s + 1; omega)]
      exact hg1even t ht
    -- the final adjacent-compare stage
    have hst := applyNetF_stage bblt (2 ^ (k + 1) - 1) (fun s => 2 * s + 1)
      (fun s => 2 * s + 2)
      (fun s t hs ht => by show 2 * s + 1 ≠ 2 * t + 2; omega)
      (fun s t hs ht h => by
        have h2 : 2 * s + 1 = 2 * t + 1 := h
        omega)
      (fun s t hs ht h => by
        have h2 : 2 * s + 2 = 2 * t + 2 := h
        omega)
      (applyNetF (scaleNet (fun t => 2 * t + 1) (oemNet k)) bblt
        (applyNetF (scaleNet (fun t => 2 * t) (oemNet k)) bblt g))
    intro t ht
    rw [Nat.zero_add]
    by_cases ht0 : t = 0
    · subst ht0
      rw [hst.2.2 0 (fun s hs =>
        ⟨by show 0 ≠ 2 * s + 1; omega, by show 0 ≠ 2 * s + 2; omega⟩)]
      have := hg2even 0 (by omega)
      rw [Nat.mul_zero] at this
      rw [this]
      exact decide_eq_decide.mpr (by omega)
    by_cases htlast : t = 2 ^ (k + 2) - 1
    · subst htlast
      have hlast : 2 ^ (k + 2) - 1 = 2 * (2 ^ (k + 1) - 1) + 1 := by omega
      rw [hst.2.2 _ (fun s hs =>
        ⟨by show 2 ^ (k + 2) - 1 ≠ 2 * s + 1; omega,
         by show 2 ^ (k + 2) - 1 ≠ 2 * s + 2; omega⟩)]
      rw [hlast, hg2odd (2 ^ (k + 1) - 1) (by omega)]
      exact decide_eq_decide.mpr (by omega)
    rcases Nat.even_or_odd t with ⟨s, hs⟩ | ⟨s, hs⟩
    · -- t = 2s with s ≥ 1: touched as v (s - 1) = 2(s-1)+2
      have hs1 : t = 2 * (s - 1) + 2 := by omega
      have hslt : s - 1 < 2 ^ (k + 1) - 1 := by omega
      have hv := (hst.2.1 (s - 1) hslt)
      rw [hs1, hv, bool_if_max]
      rw [hg2odd (s - 1) (by omega)]
      have h2s : 2 * (s - 1) + 2 = 2 * s := by omega
      rw [h2s, hg2even s (by omega), ← Bool.decide_or]
      exact decide_eq_decide.mpr (by omega)
    · -- t = 2s + 1 with t not last: touched as u s
      have hslt : s < 2 ^ (k + 1) - 1 := by omega
      have hu := (hst.1 s hslt)
      rw [hs, hu, bool_if_min]
      rw [hg2odd s (by omega)]
      have h2s : 2 * s + 2 = 2 * (s + 1) := by omega
      rw [h2s, hg2even (s + 1) (by omega), ← Bool.decide_and]
      exact decide_eq_decide.mpr (by omega)

theorem batcherK_sorts : ∀ (k : Nat) (g : Nat → Bool),
    ∃ A, AscWin (applyNetF (batcherK k) bblt g) 0 (2 ^ k) A := by
  intro k
  induction k with
  | zero =>
    intro g
    refine ⟨if g 0 then 0 else 1, ?_⟩
    intro t ht
    have ht0 : t = 0 := by omega
    subst ht0
    show applyNetF (batcherK 0) bblt g (0 + 0) = _
    cases hg : g 0 <;> simp [batcherK, applyNetF, hg]
  | succ k ih =>
    intro g
    have hpow : 2 ^ (k + 1) = 2 ^ k + 2 ^ k := by ring
    simp only [batcherK, List.append_assoc]
    rw [applyNetF_append, applyNetF_append]
    obtain ⟨b1, hb1⟩ := ih g
    have hsc := applyNetF_scale (fun t => t + 2 ^ k)
      (fun a b h => by
        have h2 : a + 2 ^ k = b + 2 ^ k := h
        omega)
      (batcherK k) bblt (applyNetF (batcherK k) bblt g)
    obtain ⟨b2, hb2⟩ := ih
      (fun s => applyNetF (batcherK k) bblt g (s + 2 ^ k))
    have hlow : ∀ t, t < 2 ^ k →
        applyNetF (scaleNet (fun t => t + 2 ^ k) (batcherK k)) bblt
          (applyNetF (batcherK k) bblt g) t =
          applyNetF (batcherK k) bblt g t := by
      intro t ht
      exact hsc.2 t (fun s => by show t ≠ s + 2 ^ k; omega)
    have hA : AscWin (applyNetF (scaleNet (fun t => t + 2 ^ k) (batcherK k))
        bblt (applyNetF (batcherK k) bblt g)) 0 (2 ^ k) (min b1 (2 ^ k)) := by
      have hb1' := ascWin_clip hb1
      intro t ht
      rw [Nat.zero_add, hlow t ht]
      have h := hb1' t ht
      rw [Nat.zero_add] at h
      exact h
    have hB : AscWin (applyNetF (scaleNet (fun t => t + 2 ^ k) (batcherK k))
        bblt (applyNetF (batcherK k) bblt g)) (2 ^ k) (2 ^ k)
        (min b2 (2 ^ k)) := by
      have hb2' := ascWin_clip hb2
      intro t ht
      show applyNetF (scaleNet (fun t => t + 2 ^ k) (batcherK k)) bblt
        (applyNetF (batcherK k) bblt g) (2 ^ k + t) = _
      have hidx : 2 ^ k + t = t + 2 ^ k := by omega
      rw [hidx, hsc.1 t]
      have h2 := hb2' t ht
      rw [Nat.zero_add] at h2
      exact h2
    exact ⟨min b1 (2 ^ k) + min b2 (2 ^ k),
      oemNet_sorts k _ (min b1 (2 ^ k)) (min b2 (2 ^ k)) (by omega) (by omega)
        hA hB⟩

theorem batcher_sortsBool (n : Nat) (hn : isPow2 n = true) :
    SortsBool (batcherNet n) n := by
  intro g
  obtain ⟨A, hA⟩ := batcherK_sorts (clog2 n) g
  have hn2 : 2 ^ clog2 n = n := by
    simpa [isPow2] using hn
  rw [hn2] at hA
  exact bsortedOn_of_ascWin hA

/-! ## Bose-Nelson merge sorts -/

set_option maxHeartbeats 3200000 in
/-- Count identity for the merged low half of the X window of a
Bose-Nelson bracket (the combined threshold restricted to `[0, x / 2)`). -/
theorem bn_arith_x_low (x y nX nY b t : Nat)
    (hbal1 : x ≤ y + 1) (hbal2 : y ≤ x + 1) (hnX : nX ≤ x) (hnY : nY ≤ y)
    (hx1 : 1 ≤ x) (hy1 : 1 ≤ y)
    (hb : (x % 2 = 1 ∧ b = y / 2) ∨ (x % 2 = 0 ∧ b = (y + 1) / 2))
    (hta : t < x / 2) :
    x / 2 - (nX - (x - x / 2) + (nY - (y - b)) - b) ≤ t ↔
      x - (nX + nY - y) ≤ t := by
  rcases hb with ⟨hp, hq⟩ | ⟨hp, hq⟩ <;> omega

set_option maxHeartbeats 3200000 in
/-- Count identity for the merged high half of the X window of a
Bose-Nelson bracket (the combined threshold restricted to `[x / 2, x)`). -/
theorem bn_arith_x_high (x y nX nY b t : Nat)
    (hbal1 : x ≤ y + 1) (hbal2 : y ≤ x + 1) (hnX : nX ≤ x) (hnY : nY ≤ y)
    (hx1 : 1 ≤ x) (hy1 : 1 ≤ y)
    (hb : (x % 2 = 1 ∧ b = y / 2) ∨ (x % 2 = 0 ∧ b = (y + 1) / 2))
    (hta : ¬t < x / 2) (ht : t < x) :
    (x - x / 2) -
        ((x - x / 2) - ((x - x / 2) -
            (min nX (x - x / 2) + min nY (y - b) - (y - b))) +
          (b - (b - (nX - (x - x / 2) + (nY - (y - b))))) - b) ≤ t - x / 2 ↔
      x - (nX + nY - y) ≤ t := by
  rcases hb with ⟨hp, hq⟩ | ⟨hp, hq⟩ <;> omega

set_option maxHeartbeats 3200000 in
/-- Count identity for the merged low half of the Y window of a
Bose-Nelson bracket (the combined threshold restricted to `[0, b)`). -/
theorem bn_arith_y_low (x y nX nY b t : Nat)
    (hbal1 : x ≤ y + 1) (hbal2 : y ≤ x + 1) (hnX : nX ≤ x) (hnY : nY ≤ y)
    (hx1 : 1 ≤ x) (hy1 : 1 ≤ y)
    (hb : (x % 2 = 1 ∧ b = y / 2) ∨ (x % 2 = 0 ∧ b = (y + 1) / 2))
    (htb : t < b) :
    b - ((x - x / 2) - ((x - x / 2) -
          (min nX (x - x / 2) + min nY (y - b) - (y - b))) +
        (b - (b - (nX - (x - x / 2) + (nY - (y - b)))))) ≤ t ↔
      y - (nX + nY) ≤ t := by
  rcases hb with ⟨hp, hq⟩ | ⟨hp, hq⟩ <;> omega

set_option maxHeartbeats 3200000 in
/-- Count identity for the merged high half of the Y window of a
Bose-Nelson bracket (the combined threshold restricted to `[b, y)`). -/
theorem bn_arith_y_high (x y nY b t : Nat)
    (hbal1 : x ≤ y + 1) (hbal2 : y ≤ x + 1) (hnY : nY ≤ y) (hx1 : 1 ≤ x)
    (hb : (x % 2 = 1 ∧ b = y / 2) ∨ (x % 2 = 0 ∧ b = (y + 1) / 2))
    (htb : ¬t < b) (ht : t < y) :
    ∀ nX : Nat,
      (y - b) - (min nX (x - x / 2) + min nY (y - b)) ≤ t - b ↔
        y - (nX + nY) ≤ t := by
  intro nX
  rcases hb with ⟨hp, hq⟩ | ⟨hp, hq⟩ <;> omega

/-- The recursive case of the Bose-Nelson merge bracket: with split sizes
`x / 2` and the parity-coupled `b`, the three recursive sub-brackets turn
ascending X- and Y-windows holding `nX` and `nY` ones into the combined
sorted windows. -/
theorem PBracket_rec_core (s : Nat)
    (ih : ∀ (x y i j : Nat) (g : Nat → Bool) (nX nY : Nat),
        x + y ≤ s → x ≤ y + 1 → y ≤ x + 1 → i + x ≤ j → nX ≤ x → nY ≤ y →
        AscWin g i x (x - nX) → AscWin g j y (y - nY) →
        AscWin (applyNetF (PBracket i x j y) bblt g) i x (x - (nX + nY - y)) ∧
          AscWin (applyNetF (PBracket i x j y) bblt g) j y (y - (nX + nY)))
    (x y i j : Nat) (g : Nat → Bool) (nX nY b : Nat)
    (hs : x + y ≤ s + 1) (hbal1 : x ≤ y + 1) (hbal2 : y ≤ x + 1)
    (hij : i + x ≤ j) (hnX : nX ≤ x) (hnY : nY ≤ y)
    (h0 : ¬(x = 0 ∨ y = 0)) (h1 : ¬(x = 1 ∧ y = 1)) (h2 : ¬(x = 1 ∧ y = 2))
    (h3 : ¬(x = 2 ∧ y = 1))
    (hb : (x % 2 = 1 ∧ b = y / 2) ∨ (x % 2 = 0 ∧ b = (y + 1) / 2))
    (hX : AscWin g i x (x - nX)) (hY : AscWin g j y (y - nY)) :
    AscWin (applyNetF (PBracket i (x / 2) j b ++
        (PBracket (i + x / 2) (x - x / 2) (j + b) (y - b) ++
          PBracket (i + x / 2) (x - x / 2) j b)) bblt g) i x
      (x - (nX + nY - y)) ∧
      AscWin (applyNetF (PBracket i (x / 2) j b ++
        (PBracket (i + x / 2) (x - x / 2) (j + b) (y - b) ++
          PBracket (i + x / 2) (x - x / 2) j b)) bblt g) j y
        (y - (nX + nY)) := by
  have hble : b ≤ y := by rcases hb with ⟨hp, hq⟩ | ⟨hp, hq⟩ <;> omega
  have hx1 : 1 ≤ x := by omega
  have hy1 : 1 ≤ y := by omega
  have hx2 : 2 ≤ x := by omega
  rw [applyNetF_append, applyNetF_append]
  obtain ⟨g1, hg1⟩ : ∃ v, v = applyNetF (PBracket i (x / 2) j b) bblt g :=
    ⟨_, rfl⟩
  rw [← hg1]
  obtain ⟨g2, hg2⟩ :
      ∃ v, v = applyNetF (PBracket (i + x / 2) (x - x / 2) (j + b) (y - b))
        bblt g1 := ⟨_, rfl⟩
  rw [← hg2]
  obtain ⟨g3, hg3⟩ :
      ∃ v, v = applyNetF (PBracket (i + x / 2) (x - x / 2) j b) bblt g2 :=
    ⟨_, rfl⟩
  rw [← hg3]
  have hA1 : AscWin g i (x / 2) (x / 2 - (nX - (x - x / 2))) := by
    intro t ht
    rw [hX t (by omega)]
    exact decide_eq_decide.mpr (by omega)
  have hB1 : AscWin g j b (b - (nY - (y - b))) := by
    intro t ht
    rw [hY t (by omega)]
    exact decide_eq_decide.mpr (by omega)
  have hcall1 := ih (x / 2) b i j g (nX - (x - x / 2)) (nY - (y - b))
    (by omega)
    (by rcases hb with ⟨hp, hq⟩ | ⟨hp, hq⟩ <;> omega)
    (by rcases hb with ⟨hp, hq⟩ | ⟨hp, hq⟩ <;> omega)
    (by omega) (by omega) (by omega) hA1 hB1
  rw [← hg1] at hcall1
  have hfr1 : ∀ t : Nat,
      ¬((i ≤ t ∧ t < i + x / 2) ∨ (j ≤ t ∧ t < j + b)) → g1 t = g t := by
    intro t ht
    rw [hg1]
    exact applyNetF_frame _ bblt
      (fun z => (i ≤ z ∧ z < i + x / 2) ∨ (j ≤ z ∧ z < j + b))
      (fun p hp => by
        have h := PBracket_bounds (x / 2 + b) i (x / 2) j b (Nat.le_refl _) p hp
        exact ⟨Or.inl h.1, Or.inr h.2⟩) g t ht
  have hA2 : AscWin g1 (i + x / 2) (x - x / 2)
      ((x - x / 2) - min nX (x - x / 2)) := by
    intro t ht
    rw [hfr1 (i + x / 2 + t) (by omega)]
    have hidx : i + x / 2 + t = i + (x / 2 + t) := by omega
    rw [hidx, hX (x / 2 + t) (by omega)]
    exact decide_eq_decide.mpr (by omega)
  have hB2 : AscWin g1 (j + b) (y - b) ((y - b) - min nY (y - b)) := by
    intro t ht
    rw [hfr1 (j + b + t) (by omega)]
    have hidx : j + b + t = j + (b + t) := by omega
    rw [hidx, hY (b + t) (by omega)]
    exact decide_eq_decide.mpr (by omega)
  have hcall2 := ih (x - x / 2) (y - b) (i + x / 2) (j + b) g1
    (min nX (x - x / 2)) (min nY (y - b))
    (by omega)
    (by rcases hb with ⟨hp, hq⟩ | ⟨hp, hq⟩ <;> omega)
    (by rcases hb with ⟨hp, hq⟩ | ⟨hp, hq⟩ <;> omega)
    (by omega) (by omega) (by omega) hA2 hB2
  rw [← hg2] at hcall2
  have hfr2 : ∀ t : Nat,
      ¬((i + x / 2 ≤ t ∧ t < i + x / 2 + (x - x / 2)) ∨
          (j + b ≤ t ∧ t < j + b + (y - b))) → g2 t = g1 t := by
    intro t ht
    rw [hg2]
    exact applyNetF_frame _ bblt
      (fun z => (i + x / 2 ≤ z ∧ z < i + x / 2 + (x - x / 2)) ∨
        (j + b ≤ z ∧ z < j + b + (y - b)))
      (fun p hp => by
        have h := PBracket_bounds ((x - x / 2) + (y - b)) (i + x / 2)
          (x - x / 2) (j + b) (y - b) (Nat.le_refl _) p hp
        exact ⟨Or.inl h.1, Or.inr h.2⟩) g1 t ht
  have hA1g2 : AscWin g2 i (x / 2)
      (x / 2 - (nX - (x - x / 2) + (nY - (y - b)) - b)) :=
    ascWin_of_eqOn (fun t ht => hfr2 (i + t) (by omega)) hcall1.1
  have hB1g2 : AscWin g2 j b (b - (nX - (x - x / 2) + (nY - (y - b)))) :=
    ascWin_of_eqOn (fun t ht => hfr2 (j + t) (by omega)) hcall1.2
  have hA2c : AscWin g2 (i + x / 2) (x - x / 2)
      ((x - x / 2) - ((x - x / 2) - ((x - x / 2) -
        (min nX (x - x / 2) + min nY (y - b) - (y - b))))) := by
    have he : (x - x / 2) - ((x - x / 2) - ((x - x / 2) -
          (min nX (x - x / 2) + min nY (y - b) - (y - b)))) =
        (x - x / 2) - (min nX (x - x / 2) + min nY (y - b) - (y - b)) := by
      omega
    rw [he]
    exact hcall2.1
  have hB1c : AscWin g2 j b
      (b - (b - (b - (nX - (x - x / 2) + (nY - (y - b)))))) := by
    have he : b - (b - (b - (nX - (x - x / 2) + (nY - (y - b))))) =
        b - (nX - (x - x / 2) + (nY - (y - b))) := by omega
    rw [he]
    exact hB1g2
  have hcall3 := ih (x - x / 2) b (i + x / 2) j g2
    ((x - x / 2) - ((x - x / 2) -
      (min nX (x - x / 2) + min nY (y - b) - (y - b))))
    (b - (b - (nX - (x - x / 2) + (nY - (y - b)))))
    (by omega)
    (by rcases hb with ⟨hp, hq⟩ | ⟨hp, hq⟩ <;> omega)
    (by rcases hb with ⟨hp, hq⟩ | ⟨hp, hq⟩ <;> omega)
    (by omega) (by omega) (by omega) hA2c hB1c
  rw [← hg3] at hcall3
  have hfr3 : ∀ t : Nat,
      ¬((i + x / 2 ≤ t ∧ t < i + x / 2 + (x - x / 2)) ∨
          (j ≤ t ∧ t < j + b)) → g3 t = g2 t := by
    intro t ht
    rw [hg3]
    exact applyNetF_frame _ bblt
      (fun z => (i + x / 2 ≤ z ∧ z < i + x / 2 + (x - x / 2)) ∨
        (j ≤ z ∧ z < j + b))
      (fun p hp => by
        have h := PBracket_bounds ((x - x / 2) + b) (i + x / 2) (x - x / 2)
          j b (Nat.le_refl _) p hp
        exact ⟨Or.inl h.1, Or.inr h.2⟩) g2 t ht
  have hA1f : AscWin g3 i (x / 2)
      (x / 2 - (nX - (x - x / 2) + (nY - (y - b)) - b)) :=
    ascWin_of_eqOn (fun t ht => hfr3 (i + t) (by omega)) hA1g2
  have hB2f : AscWin g3 (j + b) (y - b)
      ((y - b) - (min nX (x - x / 2) + min nY (y - b))) :=
    ascWin_of_eqOn (fun t ht => hfr3 (j + b + t) (by omega)) hcall2.2
  constructor
  · intro t ht
    by_cases hta : t < x / 2
    · rw [hA1f t hta]
      exact decide_eq_decide.mpr
        (bn_arith_x_low x y nX nY b t hbal1 hbal2 hnX hnY hx1 hy1 hb hta)
    · have h := hcall3.1 (t - x / 2) (by omega)
      have hidx : i + x / 2 + (t - x / 2) = i + t := by omega
      rw [hidx] at h
      rw [h]
      exact decide_eq_decide.mpr
        (bn_arith_x_high x y nX nY b t hbal1 hbal2 hnX hnY hx1 hy1 hb hta ht)
  · intro t ht
    by_cases htb : t < b
    · rw [hcall3.2 t htb]
      exact decide_eq_decide.mpr
        (bn_arith_y_low x y nX nY b t hbal1 hbal2 hnX hnY hx1 hy1 hb htb)
    · have h := hB2f (t - b) (by omega)
      have hidx : j + b + (t - b) = j + t := by omega
      rw [hidx] at h
      rw [h]
      exact decide_eq_decide.mpr
        (bn_arith_y_high x y nY b t hbal1 hbal2 hnY hx1 hb htb ht nX)

/-- The Bose-Nelson merge bracket `PBracket i x j y` merges two sorted
adjacent-free 0/1 windows: if the X window `[i, i + x)` ascends with `nX`
ones and the Y window `[j, j + y)` ascends with `nY` ones (the windows
disjoint, sizes balanced within one), then after the bracket both windows
ascend with the `nX + nY` ones packed at the top: the Y window keeps
`min (nX + nY) y` ones and the X window the remaining `nX + nY - y`. -/
theorem PBracket_merges (s : Nat) :
    ∀ (x y i j : Nat) (g : Nat → Bool) (nX nY : Nat),
    x + y ≤ s → x ≤ y + 1 → y ≤ x + 1 → i + x ≤ j → nX ≤ x → nY ≤ y →
    AscWin g i x (x - nX) → AscWin g j y (y - nY) →
    AscWin (applyNetF (PBracket i x j y) bblt g) i x (x - (nX + nY - y)) ∧
      AscWin (applyNetF (PBracket i x j y) bblt g) j y (y - (nX + nY)) := by
  induction s with
  | zero =>
    intro x y i j g nX nY hs hbal1 hbal2 hij hnX hnY hX hY
    have hx0 : x = 0 := by omega
    subst hx0
    have hy0 : y = 0 := by omega
    subst hy0
    rw [PBracket, if_pos (Or.inl rfl), applyNetF_nil]
    exact ⟨fun t ht => absurd ht (by omega), fun t ht => absurd ht (by omega)⟩
  | succ s ih =>
    intro x y i j g nX nY hs hbal1 hbal2 hij hnX hnY hX hY
    rw [PBracket]
    by_cases h0 : x = 0 ∨ y = 0
    · rw [if_pos h0, applyNetF_nil]
      rcases h0 with rfl | rfl
      · exact ⟨fun t ht => absurd ht (by omega),
          fun t ht => by rw [hY t ht]; exact decide_eq_decide.mpr (by omega)⟩
      · exact ⟨fun t ht => by rw [hX t ht]; exact decide_eq_decide.mpr (by omega),
          fun t ht => absurd ht (by omega)⟩
    rw [if_neg h0]
    split_ifs with h1 h2 h3 hx
    · obtain ⟨rfl, rfl⟩ := h1
      have hne : i ≠ j := by omega
      have e : applyNetF [(i, j)] bblt g = cswapF bblt g i j := rfl
      rw [e]
      constructor
      · intro t ht
        have ht0 : t = 0 := by omega
        subst ht0
        have hvi := hX 0 (by omega)
        have hvj := hY 0 (by omega)
        rw [Nat.add_zero] at hvi hvj
        rw [Nat.add_zero, cswapF_bblt_left g hne, hvi, hvj, ← Bool.decide_and]
        exact decide_eq_decide.mpr (by omega)
      · intro t ht
        have ht0 : t = 0 := by omega
        subst ht0
        have hvi := hX 0 (by omega)
        have hvj := hY 0 (by omega)
        rw [Nat.add_zero] at hvi hvj
        rw [Nat.add_zero, cswapF_bblt_right g hne, hvi, hvj, ← Bool.decide_or]
        exact decide_eq_decide.mpr (by omega)
    · obtain ⟨rfl, rfl⟩ := h2
      have hne1 : i ≠ j + 1 := by omega
      have hne2 : i ≠ j := by omega
      have hne3 : j ≠ j + 1 := by omega
      have e : applyNetF [(i, j + 1), (i, j)] bblt g =
          cswapF bblt (cswapF bblt g i (j + 1)) i j := rfl
      rw [e]
      have hvi := hX 0 (by omega)
      have hvj := hY 0 (by omega)
      rw [Nat.add_zero] at hvi hvj
      have hvj1 := hY 1 (by omega)
      have m1 : cswapF bblt g i (j + 1) i = (g i && g (j + 1)) :=
        cswapF_bblt_left g hne1
      have m2 : cswapF bblt g i (j + 1) (j + 1) = (g i || g (j + 1)) :=
        cswapF_bblt_right g hne1
      have m3 : cswapF bblt g i (j + 1) j = g j :=
        cswapF_frame bblt g (Ne.symm hne2) hne3
      constructor
      · intro t ht
        have ht0 : t = 0 := by omega
        subst ht0
        simp only [Nat.add_zero]
        rw [cswapF_bblt_left _ hne2, m1, m3, hvi, hvj, hvj1,
          ← Bool.decide_and, ← Bool.decide_and]
        exact decide_eq_decide.mpr (by omega)
      · intro t ht
        have ht01 : t = 0 ∨ t = 1 := by omega
        rcases ht01 with rfl | rfl
        · simp only [Nat.add_zero]
          rw [cswapF_bblt_right _ hne2, m1, m3, hvi, hvj, hvj1,
            ← Bool.decide_and, ← Bool.decide_or]
          exact decide_eq_decide.mpr (by omega)
        · rw [cswapF_frame bblt _ (Ne.symm hne1) (Ne.symm hne3), m2, hvi, hvj1,
            ← Bool.decide_or]
          exact decide_eq_decide.mpr (by omega)
    · obtain ⟨rfl, rfl⟩ := h3
      have hne1 : i ≠ j := by omega
      have hne2 : i + 1 ≠ j := by omega
      have hne3 : i ≠ i + 1 := by omega
      have e : applyNetF [(i, j), (i + 1, j)] bblt g =
          cswapF bblt (cswapF bblt g i j) (i + 1) j := rfl
      rw [e]
      have hvi := hX 0 (by omega)
      have hvj := hY 0 (by omega)
      rw [Nat.add_zero] at hvi hvj
      have hvi1 := hX 1 (by omega)
      have m1 : cswapF bblt g i j i = (g i && g j) := cswapF_bblt_left g hne1
      have m2 : cswapF bblt g i j j = (g i || g j) := cswapF_bblt_right g hne1
      have m3 : cswapF bblt g i j (i + 1) = g (i + 1) :=
        cswapF_frame bblt g (Ne.symm hne3) hne2
      constructor
      · intro t ht
        have ht01 : t = 0 ∨ t = 1 := by omega
        rcases ht01 with rfl | rfl
        · simp only [Nat.add_zero]
          rw [cswapF_frame bblt _ hne3 hne1, m1, hvi, hvj,
            ← Bool.decide_and]
          exact decide_eq_decide.mpr (by omega)
        · rw [cswapF_bblt_left _ hne2, m3, m2, hvi, hvi1, hvj,
            ← Bool.decide_or, ← Bool.decide_and]
          exact decide_eq_decide.mpr (by omega)
      · intro t ht
        have ht0 : t = 0 := by omega
        subst ht0
        simp only [Nat.add_zero]
        rw [cswapF_bblt_right _ hne2, m3, m2, hvi, hvi1, hvj,
          ← Bool.decide_or, ← Bool.decide_or]
        exact decide_eq_decide.mpr (by omega)
    · rw [List.append_assoc]
      exact PBracket_rec_core s ih x y i j g nX nY (y / 2) hs hbal1 hbal2 hij
        hnX hnY h0 h1 h2 h3 (Or.inl ⟨hx, rfl⟩) hX hY
    · rw [List.append_assoc]
      exact PBracket_rec_core s ih x y i j g nX nY ((y + 1) / 2) hs hbal1 hbal2
        hij hnX hnY h0 h1 h2 h3 (Or.inr ⟨by omega, rfl⟩) hX hY

/-- The Bose-Nelson sorter `PStar i m` sorts its window on 0/1 buffers:
after replay the window `[i, i + m)` ascends with some threshold. -/
theorem PStar_sorts (s : Nat) : ∀ (m i : Nat) (g : Nat → Bool), m ≤ s →
    ∃ c, c ≤ m ∧ AscWin (applyNetF (PStar i m) bblt g) i m (m - c) := by
  induction s with
  | zero =>
    intro m i g hs
    have hm0 : m = 0 := by omega
    subst hm0
    rw [PStar, dif_pos (by omega : (0 : Nat) ≤ 1), applyNetF_nil]
    exact ⟨0, by omega, fun t ht => absurd ht (by omega)⟩
  | succ s ih =>
    intro m i g hs
    rw [PStar]
    by_cases hm : m ≤ 1
    · rw [dif_pos hm, applyNetF_nil]
      by_cases hm0 : m = 0
      · subst hm0
        exact ⟨0, by omega, fun t ht => absurd ht (by omega)⟩
      · have hm1 : m = 1 := by omega
        subst hm1
        refine ⟨if g i then 1 else 0, by split <;> omega, ?_⟩
        intro t ht
        have ht0 : t = 0 := by omega
        subst ht0
        simp only [Nat.add_zero]
        cases hgi : g i <;> decide
    · rw [dif_neg hm]
      rw [List.append_assoc, applyNetF_append, applyNetF_append]
      obtain ⟨c1, hc1, hA⟩ := ih (m / 2) i g (by omega)
      obtain ⟨g1, hg1⟩ : ∃ v, v = applyNetF (PStar i (m / 2)) bblt g :=
        ⟨_, rfl⟩
      rw [← hg1] at hA ⊢
      obtain ⟨c2, hc2, hB⟩ := ih (m - m / 2) (i + m / 2) g1 (by omega)
      obtain ⟨g2, hg2⟩ :
          ∃ v, v = applyNetF (PStar (i + m / 2) (m - m / 2)) bblt g1 :=
        ⟨_, rfl⟩
      rw [← hg2] at hB ⊢
      have hfr : ∀ t : Nat,
          ¬(i + m / 2 ≤ t ∧ t < i + m / 2 + (m - m / 2)) → g2 t = g1 t := by
        intro t ht
        rw [hg2]
        exact applyNetF_frame _ bblt
          (fun z => i + m / 2 ≤ z ∧ z < i + m / 2 + (m - m / 2))
          (fun p hp => by
            have h := PStar_bounds (m - m / 2) (i + m / 2) (m - m / 2)
              (Nat.le_refl _) p hp
            exact ⟨⟨h.1, by omega⟩, ⟨by omega, h.2.2⟩⟩) g1 t ht
      have hA2 : AscWin g2 i (m / 2) (m / 2 - c1) :=
        ascWin_of_eqOn (fun t ht => hfr (i + t) (by omega)) hA
      have hmerge := PBracket_merges m (m / 2) (m - m / 2) i (i + m / 2) g2
        c1 c2 (by omega) (by omega) (by omega) (by omega) hc1 hc2 hA2 hB
      refine ⟨c1 + c2, by omega, ?_⟩
      intro t ht
      by_cases hta : t < m / 2
      · rw [hmerge.1 t hta]
        exact decide_eq_decide.mpr (by omega)
      · have h := hmerge.2 (t - m / 2) (by omega)
        have hidx : i + m / 2 + (t - m / 2) = i + t := by omega
        rw [hidx] at h
        rw [h]
        exact decide_eq_decide.mpr (by omega)

/-- The Bose-Nelson network sorts every 0/1 buffer of its width. -/
theorem boseNelson_sortsBool (n : Nat) : SortsBool (boseNelsonNet n) n := by
  intro g
  obtain ⟨c, hc, hA⟩ := PStar_sorts n n 0 g (Nat.le_refl n)
  exact bsortedOn_of_ascWin hA

/-! ## Sort correctness of every built network -/

/-- Every network the builder produces sorts all 0/1 buffers of its
width (the hypothesis of the 0/1 principle), by the per-construction
correctness theorems. -/
theorem build_sortsBool {n : Nat} {t : NetworkType} {net : List (Nat × Nat)}
    (hb : build n t = some net) : SortsBool net n := by
  rw [build.eq_def] at hb
  by_cases hn : n = 0
  · rw [if_pos hn] at hb
    exact absurd hb (by simp)
  rw [if_neg hn] at hb
  cases t with
  | BubbleSort =>
    obtain rfl : bubbleNet n = net := by simpa using hb
    exact bubble_sortsBool n
  | InsertionSort =>
    obtain rfl : insertionNet n = net := by simpa using hb
    exact insertion_sortsBool n
  | BoseNelsonSort =>
    obtain rfl : boseNelsonNet n = net := by simpa using hb
    exact boseNelson_sortsBool n
  | BatcherOddEvenMergeSort =>
    by_cases hpow : isPow2 n
    · rw [if_pos hpow] at hb
      obtain rfl : batcherNet n = net := by simpa using hb
      exact batcher_sortsBool n hpow
    · simp [hpow] at hb
  | BitonicMergeSort =>
    obtain rfl : bitonicNet n = net := by simpa using hb
    exact bitonic_sortsBool n
  | SizeOptimizedSort =>
    by_cases h1 : n = 1
    · subst h1
      obtain rfl : ([] : List (Nat × Nat)) = net := by simpa using hb
      intro g t ht
      exact absurd ht (by omega)
    · simp [h1] at hb

/-- Replaying any built network on a buffer of matching length leaves it
sorted under any strict-weak-order comparator, via the 0/1 principle. -/
theorem build_sorts {n : Nat} {t : NetworkType} {net : List (Nat × Nat)}
    (hb : build n t = some net) (comp : α → α → Bool) (hswo : IsSWO comp)
    (l : List α) (hl : l.length = n) :
    SortedUnder comp (applyNetwork net comp l) := by
  cases l with
  | nil =>
    have h : applyNetwork net comp ([] : List α) = [] :=
      (applyNetwork_perm net comp []).eq_nil
    rw [h]
    rfl
  | cons a tl =>
    refine sortedUnder_of_pointwise comp a _ ?_
    intro s hs
    have hlen : (applyNetwork net comp (a :: tl)).length = n := by
      rw [applyNetwork_length]
      exact hl
    have hnet := build_bounds hb
    rw [applyNetwork_getD net hnet comp (a :: tl) hl a s,
      applyNetwork_getD net hnet comp (a :: tl) hl a (s + 1)]
    exact zero_one_principle net n (build_sortsBool hb) comp hswo
      (fun u => (a :: tl).getD u a) s (by omega)

/-- C1: for every supported (N, tag) combination (every width and tag the
builder accepts), every strict-weak-order comparator, and every buffer of
exactly N elements, applying the built network leaves the buffer
non-decreasing under the comparator (sort correctness by construction). -/
theorem C1_sort_correctness (n : Nat) (t : NetworkType)
    (net : List (Nat × Nat)) (comp : α → α → Bool) (l : List α)
    (hb : build n t = some net) (hswo : IsSWO comp) (hl : l.length = n) :
    SortedUnder comp (applyNetwork net comp l) :=
  build_sorts hb comp hswo l hl

/-- C1 witness: the width-3 Bose-Nelson network (the default tag) sorts
the concrete buffer [3, 1, 2] under the ascending comparator. -/
theorem C1_sort_correctness_witness :
    build 3 NetworkType.BoseNelsonSort = some (boseNelsonNet 3) ∧
      IsSWO intLt ∧ ([3, 1, 2] : List Int).length = 3 ∧
      SortedUnder intLt (applyNetwork (boseNelsonNet 3) intLt [3, 1, 2]) :=
  ⟨rfl, intLt_isSWO, rfl,
    C1_sort_correctness 3 NetworkType.BoseNelsonSort (boseNelsonNet 3) intLt
      [3, 1, 2] rfl intLt_isSWO rfl⟩

/-- C4 counterexample: with the always-false comparator (a legitimate
strict weak order under which all elements are mutually incomparable),
the width-2 bubble network maps the permuted buffers [0, 1] and [1, 0]
to different outputs, so equality of outcomes over all permutations of a
multiset fails for general strict-weak-order comparators. -/
theorem C4_counterexample :
    IsSWO (fun _ _ : Int => false) ∧
      build 2 NetworkType.BubbleSort = some [(0, 1)] ∧
      ([0, 1] : List Int).Perm [1, 0] ∧
      applyNetwork [(0, 1)] (fun _ _ : Int => false) [0, 1] ≠
        applyNetwork [(0, 1)] (fun _ _ : Int => false) [1, 0] :=
  ⟨⟨fun a => rfl, fun a b c hab _ => by simp at hab,
      fun a b c _ _ => rfl⟩,
    by decide, by decide, by decide⟩

/-- C4 (amended): when the strict-weak-order comparator is moreover
total (mutually incomparable elements are equal), applying the same
built network to two buffers that are permutations of the same multiset
yields buffers that are equal element by element. -/
theorem C4_equal_outcome (n : Nat) (t : NetworkType) (net : List (Nat × Nat))
    (comp : α → α → Bool) (l1 l2 : List α) (hb : build n t = some net)
    (hswo : IsSWO comp)
    (hanti : ∀ a b, comp a b = false → comp b a = false → a = b)
    (hl1 : l1.length = n) (hperm : l1.Perm l2) :
    applyNetwork net comp l1 = applyNetwork net comp l2 := by
  have hl2 : l2.length = n := by
    rw [← hperm.length_eq]
    exact hl1
  have hs1 := build_sorts hb comp hswo l1 hl1
  have hs2 := build_sorts hb comp hswo l2 hl2
  have htrans : IsTrans α (fun a b : α => comp b a = false) :=
    ⟨fun a b c hab hbc => hswo.2.2 c b a hbc hab⟩
  have hanti2 : IsAntisymm α (fun a b : α => comp b a = false) :=
    ⟨fun a b hab hba => hanti a b hba hab⟩
  have hp : (applyNetwork net comp l1).Perm (applyNetwork net comp l2) :=
    ((applyNetwork_perm net comp l1).trans hperm).trans
      (applyNetwork_perm net comp l2).symm
  have hpw1 : (applyNetwork net comp l1).Pairwise
      (fun a b => comp b a = false) :=
    List.chain'_iff_pairwise.mp ((sortedUnder_iff_chain' comp _).mp hs1)
  have hpw2 : (applyNetwork net comp l2).Pairwise
      (fun a b => comp b a = false) :=
    List.chain'_iff_pairwise.mp ((sortedUnder_iff_chain' comp _).mp hs2)
  exact List.eq_of_perm_of_sorted hp hpw1 hpw2

/-- C4 witness: the width-3 bubble network maps the permuted buffers
[2, 1, 3] and [3, 2, 1] to the same sorted output under the ascending
comparator. -/
theorem C4_equal_outcome_witness :
    build 3 NetworkType.BubbleSort = some (bubbleNet 3) ∧ IsSWO intLt ∧
      (∀ a b : Int, intLt a b = false → intLt b a = false → a = b) ∧
      ([2, 1, 3] : List Int).length = 3 ∧
      ([2, 1, 3] : List Int).Perm [3, 2, 1] ∧
      applyNetwork (bubbleNet 3) intLt [2, 1, 3] =
        applyNetwork (bubbleNet 3) intLt [3, 2, 1] :=
  ⟨rfl, intLt_isSWO,
    fun a b h1 h2 => by
      simp only [intLt, decide_eq_false_iff_not, Int.not_lt] at h1 h2
      omega,
    rfl, by decide,
    C4_equal_outcome 3 NetworkType.BubbleSort (bubbleNet 3) intLt [2, 1, 3]
      [3, 2, 1] rfl intLt_isSWO
      (fun a b h1 h2 => by
        simp only [intLt, decide_eq_false_iff_not, Int.not_lt] at h1 h2
        omega)
      rfl (by decide)⟩

end SortingNetworkCpp
